import Mathlib

/-!
# Playlist table model: ordered playlist store

A shallow embedding of `src/library/playlisttablemodel.cpp`.  The SQL table
`PlaylistTracks` is a list of rows, an `UPDATE` is a map over that list, and the
model object is a record holding the bound playlist id, the table, and the rows
of the view that the last `select()` produced.

Definitions come first, theorems follow.
-/

namespace Mixxx

/-! ## Data model -/

/-- One row of the SQL table `PlaylistTracks`: the playlist it belongs to, the
track it refers to and its rank inside the playlist. -/
structure PlaylistTrack where
  playlist_id : Int
  track_id : Int
  position : Int
deriving DecidableEq

/-- One row of the SQL table `library`, reduced to the two columns that the
view created in `setPlaylist` reads: `library.id` and `library.mixxx_deleted`. -/
structure LibraryTrack where
  id : Int
  mixxx_deleted : Bool
deriving DecidableEq

/-- A `QModelIndex`, reduced to its row.  An invalid index has row `-1`. -/
structure QModelIndex where
  row : Int
deriving DecidableEq

/-- The table `PlaylistTracks`. -/
abbrev Table := List PlaylistTrack

/-- The state of a `PlaylistTableModel` together with the part of the database
it works on.
* `m_iPlaylistId`, `m_showAll`: the members of the C++ class;
* `PlaylistTracks`, `library`: the two SQL tables;
* `lockedPlaylists`: the ids for which `PlaylistDAO::isPlaylistLocked` answers true;
* `rows`: the rows of the view as loaded by the last `select()`. -/
structure PlaylistTableModel where
  m_iPlaylistId : Int
  m_showAll : Bool
  PlaylistTracks : Table
  library : List LibraryTrack
  lockedPlaylists : List Int
  rows : List PlaylistTrack
deriving DecidableEq

/-! ## Database primitives -/

/-- The statement `UPDATE PlaylistTracks SET position = set(position) WHERE cond`:
every row that satisfies `cond` gets its position replaced, all rows at once. -/
def sqlUpdate (cond : PlaylistTrack → Bool) (set : Int → Int) (db : Table) : Table :=
  db.map (fun r => if cond r then { r with position := set r.position } else r)

/-- The call `query.exec(stmt)` whose result the code ignores: a statement that
succeeds (`ok = true`) is applied, a statement that fails has no effect. -/
def exec (ok : Bool) (stmt : Table → Table) (db : Table) : Table :=
  if ok then stmt db else db

/-- Runs the statements in order, the `k`-th statement issued succeeding exactly
when `ok k` holds.  The code never inspects a result before issuing the next
statement. -/
def execAll (ok : Nat → Bool) : Nat → List (Table → Table) → Table → Table
  | _, [], db => db
  | k, stmt :: rest, db => execAll ok (k + 1) rest (exec (ok k) stmt db)

/-- Every statement succeeds. -/
def allSucceed : Nat → Bool := fun _ => true

/-- Modelled from the spec: `PlaylistDAO::isPlaylistLocked`, which is not part
of the sources at hand; a playlist carries a lock flag. -/
def isPlaylistLocked (m : PlaylistTableModel) (playlistId : Int) : Bool :=
  decide (playlistId ∈ m.lockedPlaylists)

/-- Modelled from the spec: `PlaylistDAO::removeTrackFromPlaylist`, which is not
part of the sources at hand.  A single removal deletes the entry at the given
position and compacts all following (higher) positions downward by one. -/
def removeTrackFromPlaylist (db : Table) (playlistId position : Int) : Table :=
  sqlUpdate (fun r => decide (r.playlist_id = playlistId ∧ r.position > position))
    (fun p => p - 1)
    (db.filter (fun r => !decide (r.playlist_id = playlistId ∧ r.position = position)))

/-- The library function `qSort` on a `QList<int>`: ascending order. -/
def qSort (l : List Int) : List Int :=
  l.insertionSort (fun a b => a ≤ b)

/-! ## The view -/

/-- The rows of the temporary view created in `setPlaylist`:
`SELECT ... FROM PlaylistTracks INNER JOIN library ON library.id = track_id
WHERE playlist_id = id [AND library.mixxx_deleted = 0]`, the last condition being
present unless `m_showAll` is set. -/
def viewRows (m : PlaylistTableModel) : List PlaylistTrack :=
  m.PlaylistTracks.filter (fun r =>
    decide (r.playlist_id = m.m_iPlaylistId) &&
      m.library.any (fun t => decide (t.id = r.track_id) && (m.m_showAll || !t.mixxx_deleted)))

/-- Modelled from the spec: `BaseSqlTableModel::select`, which is not part of
the sources at hand.  It reloads the rows of the view, sorted by the default sort
key set in `setPlaylist`: `position`, ascending. -/
def select (m : PlaylistTableModel) : PlaylistTableModel :=
  { m with rows := (viewRows m).insertionSort (fun a b => a.position ≤ b.position) }

/-- The accessor `rowCount()`: the number of rows loaded in the view. -/
def rowCount (m : PlaylistTableModel) : Int :=
  (m.rows.length : Int)

/-- The expression `index.sibling(index.row(), positionColumn).data().toInt()`:
the position shown in the row of the index, and `0` (an invalid `QVariant`
converted to `int`) when the index does not name a row of the view. -/
def positionData (m : PlaylistTableModel) (index : QModelIndex) : Int :=
  if 0 ≤ index.row then
    match m.rows[index.row.toNat]? with
    | some r => r.position
    | none => 0
  else 0

/-! ## Removal -/

/-- The method `PlaylistTableModel::removeTrack`. -/
def removeTrack (m : PlaylistTableModel) (index : QModelIndex) : PlaylistTableModel :=
  if isPlaylistLocked m m.m_iPlaylistId then m
  else
    let position := positionData m index
    select { m with
      PlaylistTracks := removeTrackFromPlaylist m.PlaylistTracks m.m_iPlaylistId position }

/-- The method `PlaylistTableModel::removeTracks`: the positions of the indices
are collected, sorted ascending with `qSort`, and walked from the back of the
sorted list to its front, one single removal per element. -/
def removeTracks (m : PlaylistTableModel) (indices : List QModelIndex) : PlaylistTableModel :=
  let locked := isPlaylistLocked m m.m_iPlaylistId
  if locked then m
  else
    let trackPositions := indices.map (positionData m)
    let sorted := qSort trackPositions
    select { m with
      PlaylistTracks := sorted.reverse.foldl
        (fun db p => removeTrackFromPlaylist db m.m_iPlaylistId p) m.PlaylistTracks }

/-! ## Move -/

/-- The `UPDATE` statements that `moveTrack` issues, in the order it issues
them: four when the destination lies before the source, three when it lies
after it, none when the two are equal. -/
def moveTrackStatements (playlistId oldPosition newPosition : Int) : List (Table → Table) :=
  if newPosition < oldPosition then
    [ sqlUpdate (fun r => decide (r.position = oldPosition ∧ r.playlist_id = playlistId))
        (fun _ => -1),
      sqlUpdate (fun r => decide (r.position > oldPosition ∧ r.playlist_id = playlistId))
        (fun p => p - 1),
      sqlUpdate (fun r => decide (r.position ≥ newPosition ∧ r.playlist_id = playlistId))
        (fun p => p + 1),
      sqlUpdate (fun r => decide (r.position = -1 ∧ r.playlist_id = playlistId))
        (fun _ => newPosition) ]
  else if newPosition > oldPosition then
    [ sqlUpdate (fun r => decide (r.position = oldPosition ∧ r.playlist_id = playlistId))
        (fun _ => -1),
      sqlUpdate (fun r => decide (r.position > oldPosition ∧ r.position ≤ newPosition ∧
          r.playlist_id = playlistId))
        (fun p => p - 1),
      sqlUpdate (fun r => decide (r.position = -1 ∧ r.playlist_id = playlistId))
        (fun _ => newPosition) ]
  else []

/-- The method `PlaylistTableModel::moveTrack`, with `ok k` telling whether the
`k`-th statement it issues succeeds.  The two positions are read from the
indices; a negative destination returns at once, a destination `0` becomes
`rowCount()`.  The transaction is committed unconditionally after the last
statement, so the table that results from the statements is the stored one. -/
def moveTrackWith (ok : Nat → Bool) (m : PlaylistTableModel)
    (sourceIndex destIndex : QModelIndex) : PlaylistTableModel :=
  let newPosition := positionData m destIndex
  let oldPosition := positionData m sourceIndex
  if newPosition < 0 then m
  else
    let newPosition := if newPosition = 0 then rowCount m else newPosition
    select { m with
      PlaylistTracks := execAll ok 0
        (moveTrackStatements m.m_iPlaylistId oldPosition newPosition) m.PlaylistTracks }

/-- The method `PlaylistTableModel::moveTrack` when every statement succeeds. -/
def moveTrack (m : PlaylistTableModel) (sourceIndex destIndex : QModelIndex) :
    PlaylistTableModel :=
  moveTrackWith allSucceed m sourceIndex destIndex

/-! ## Shuffle -/

/-- The integer nearest to `y`, the even one of the two when `y` lies half-way
between two integers. -/
def roundHalfEven (y : ℚ) : Int :=
  if y - (⌊y⌋ : ℚ) < 1 / 2 then ⌊y⌋
  else if 1 / 2 < y - (⌊y⌋ : ℚ) then ⌊y⌋ + 1
  else if ⌊y⌋ % 2 = 0 then ⌊y⌋ else ⌊y⌋ + 1

/-- The result of an operation on `double` values as it is stored: the exact
result `x` rounded to the nearest value with a significand of 53 bits, ties going
to the even significand (IEEE 754 binary64, round to nearest; one rounding per
operation).  With `2 ^ e ≤ |x| < 2 ^ (e + 1)` the values that can be stored are the
multiples of `2 ^ (e - 52)`.  The range of the exponent is not modelled: the
expression of the draw stays far from overflow and underflow.  A result of
magnitude `2 ^ 53` or more, which the draw cannot produce from operands of type
`int`, is left as it is. -/
def roundDouble (x : ℚ) : ℚ :=
  if x = 0 ∨ (2 : ℚ) ^ (53 : ℤ) ≤ |x| then x
  else (roundHalfEven (x / (2 : ℚ) ^ (Int.log 2 |x| - 52)) : ℚ) * (2 : ℚ) ^ (Int.log 2 |x| - 52)

/-- The conversion of a `double` to `int`: truncation toward zero. -/
def toInt (x : ℚ) : Int :=
  if 0 ≤ x then ⌊x⌋ else ⌈x⌉

/-- The expression
`int(qrand() / (RAND_MAX + 1.0) * (numOfTracks - shuffleStartRow) + shuffleStartRow + 1)`
for the drawn value `q`, in `double` arithmetic: the `int` operands are converted
exactly, and the sum `RAND_MAX + 1.0`, the quotient, the product and the two sums
are each rounded, from left to right, before the result is truncated. -/
def randomPosition (RAND_MAX q : Nat) (numOfTracks shuffleStartRow : Int) : Int :=
  toInt (roundDouble (roundDouble (roundDouble
    (roundDouble ((q : ℚ) / roundDouble ((RAND_MAX : ℚ) + 1)) *
      ((numOfTracks - shuffleStartRow : Int) : ℚ)) + (shuffleStartRow : ℚ)) + 1))

/-- The three `UPDATE` statements of one pass through the loop of
`shuffleTracks`: the entry at `oldPosition` goes to `-1`, the entry at `random`
goes to `oldPosition`, the entry at `-1` goes to `random`. -/
def swapStatements (playlistId oldPosition random : Int) : List (Table → Table) :=
  [ sqlUpdate (fun r => decide (r.position = oldPosition ∧ r.playlist_id = playlistId))
      (fun _ => -1),
    sqlUpdate (fun r => decide (r.position = random ∧ r.playlist_id = playlistId))
      (fun _ => oldPosition),
    sqlUpdate (fun r => decide (r.position = -1 ∧ r.playlist_id = playlistId))
      (fun _ => random) ]

/-- One pass through the loop of `shuffleTracks`, the `k`-th one: it handles
row `i = numOfTracks - 1 - k` of the view as loaded before the call and uses the
`k`-th value that `qrand` returns. -/
def shuffleStep (RAND_MAX : Nat) (qrand : Nat → Nat) (m : PlaylistTableModel)
    (numOfTracks shuffleStartRow : Int) (db : Table) (k : Nat) : Table :=
  let i : Int := numOfTracks - 1 - (k : Int)
  let oldPosition := positionData m ⟨i⟩
  let random := randomPosition RAND_MAX (qrand k) numOfTracks shuffleStartRow
  execAll allSucceed 0 (swapStatements m.m_iPlaylistId oldPosition random) db

/-- The method `PlaylistTableModel::shuffleTracks`.  The loop
`for (i = numOfTracks-1; i >= shuffleStartRow; i--)` makes
`numOfTracks - shuffleStartRow` passes (none when that is not positive); the view
is reloaded only after the loop. -/
def shuffleTracks (RAND_MAX : Nat) (qrand : Nat → Nat) (m : PlaylistTableModel)
    (shuffleStartIndex : QModelIndex) : PlaylistTableModel :=
  let numOfTracks := rowCount m
  let shuffleStartRow := shuffleStartIndex.row
  select { m with
    PlaylistTracks := (List.range (numOfTracks - shuffleStartRow).toNat).foldl
      (shuffleStep RAND_MAX qrand m numOfTracks shuffleStartRow) m.PlaylistTracks }

/-! ## Selection of a playlist -/

/-- Modelled from the spec: the rebuild of the projection, made in the source by
the calls `setTable`, `initHeaderData`, `setSearch("")`, `setDefaultSort` and
`setSort` of `BaseSqlTableModel`, which is not part of the sources at hand.  It
reconstructs the projection of the bound playlist, the entries of the playlist
joined with the library, with an empty search and in the default order
(`position`, ascending), as `select` loads it.  The second component of the state
is the number of rebuilds made so far, and the rebuild is what advances it. -/
def rebuildProjection (s : PlaylistTableModel × Nat) : PlaylistTableModel × Nat :=
  (select s.1, s.2 + 1)

/-- The method `PlaylistTableModel::setPlaylist`, on a state made of the model
and the number of rebuilds of the projection made so far.  A call for the
playlist that is already bound returns at once.  Otherwise the model is bound to
the new playlist, the view of that playlist is defined, and the projection is
rebuilt. -/
def setPlaylist (s : PlaylistTableModel × Nat) (playlistId : Int) : PlaylistTableModel × Nat :=
  if s.1.m_iPlaylistId = playlistId then s
  else rebuildProjection ({ s.1 with m_iPlaylistId := playlistId }, s.2)

/-! ## Insertion -/

/-- The track identity resolver `TrackDAO`, an external collaborator: given the
library and one location (or a list of locations) it answers a track id (a
negative one when the location cannot be resolved) and the library as it leaves
it, a track possibly added or undeleted. -/
structure TrackDAO where
  addTrack : List LibraryTrack → String → Int × List LibraryTrack
  addTracks : List LibraryTrack → List String → List Int × List LibraryTrack

/-- Modelled from the spec: `PlaylistDAO::insertTrackIntoPlaylist`, which is not
part of the sources at hand.  All existing entries at a position at or above the
target are shifted by one and the new row is inserted at the target. -/
def insertTrackIntoPlaylist (db : Table) (trackId playlistId position : Int) : Table :=
  sqlUpdate (fun r => decide (r.position ≥ position ∧ r.playlist_id = playlistId))
    (fun p => p + 1) db ++ [⟨playlistId, trackId, position⟩]

/-- Modelled from the spec: `PlaylistDAO::appendTrackToPlaylist`, which is not
part of the sources at hand: an insertion at position `N + 1`, `N` being the
number of entries of the playlist. -/
def appendTrackToPlaylist (db : Table) (trackId playlistId : Int) : Table :=
  insertTrackIntoPlaylist db trackId playlistId
    (((db.filter (fun r => decide (r.playlist_id = playlistId))).length : Int) + 1)

/-- Modelled from the spec: `PlaylistDAO::insertTracksIntoPlaylist`, which is not
part of the sources at hand.  The ids that failed to resolve (negative ones) are
dropped, the others are inserted as a contiguous block that starts at the target,
the existing entries at or above the target being shifted by the length of the
block.  The first component is the number of tracks inserted. -/
def insertTracksIntoPlaylist (db : Table) (trackIds : List Int) (playlistId position : Int) :
    Int × Table :=
  let resolved := trackIds.filter (fun t => decide (0 ≤ t))
  ((resolved.length : Int),
    sqlUpdate (fun r => decide (r.position ≥ position ∧ r.playlist_id = playlistId))
      (fun p => p + (resolved.length : Int)) db ++
    resolved.enum.map (fun jt => ⟨playlistId, jt.2, position + (jt.1 : Int)⟩))

/-- The position that `addTrack` and `addTracks` compute from the index they are
given and hand to the insert of `PlaylistDAO`: the position shown in the row of
the index, replaced by `rowCount() + 1` when it is `0` or less. -/
def insertPosition (m : PlaylistTableModel) (index : QModelIndex) : Int :=
  let position := positionData m index
  if position ≤ 0 then rowCount m + 1 else position

/-- The method `PlaylistTableModel::addTrack`: the value it returns and the state
it leaves. -/
def addTrack (trackDao : TrackDAO) (m : PlaylistTableModel) (index : QModelIndex)
    (location : String) : Bool × PlaylistTableModel :=
  let position := insertPosition m index
  let resolved := trackDao.addTrack m.library location
  let trackId := resolved.1
  if trackId < 0 then (false, { m with library := resolved.2 })
  else
    (true, select { m with
      library := resolved.2
      PlaylistTracks :=
        insertTrackIntoPlaylist m.PlaylistTracks trackId m.m_iPlaylistId position })

/-- The method `PlaylistTableModel::appendTrack`: the value it returns and the
state it leaves. -/
def appendTrack (m : PlaylistTableModel) (trackId : Int) : Bool × PlaylistTableModel :=
  if trackId < 0 then (false, m)
  else
    (true, select { m with
      PlaylistTracks := appendTrackToPlaylist m.PlaylistTracks trackId m.m_iPlaylistId })

/-- The method `PlaylistTableModel::addTracks`: the number of tracks added and
the state it leaves.  The view is reloaded only when a track was added. -/
def addTracks (trackDao : TrackDAO) (m : PlaylistTableModel) (index : QModelIndex)
    (locations : List String) : Int × PlaylistTableModel :=
  let position := insertPosition m index
  let resolved := trackDao.addTracks m.library locations
  let inserted := insertTracksIntoPlaylist m.PlaylistTracks resolved.1 m.m_iPlaylistId position
  let tracksAdded := inserted.1
  let m1 := { m with library := resolved.2, PlaylistTracks := inserted.2 }
  if tracksAdded > 0 then (tracksAdded, select m1) else (tracksAdded, m1)

/-! ## Vocabulary for the proofs -/

/-- The table with the position of every entry of one playlist replaced by its
image under `f`; every `UPDATE` of this file has this shape. -/
def onPlaylist (playlistId : Int) (f : Int → Int) (db : Table) : Table :=
  db.map (fun r => if r.playlist_id = playlistId then { r with position := f r.position } else r)

/-- The net effect that the spec gives for a move from `o` to `n`, as a function
of the position `p` of an entry: the entry at `o` lands at `n`, the entries
between the two move by one toward the vacated slot, the others stay. -/
def movedPosition (o n p : Int) : Int :=
  if p = o then n
  else if o < p ∧ p ≤ n then p - 1
  else if n ≤ p ∧ p < o then p + 1
  else p

/-- The number of the positions listed in `ps` that lie below `q`. -/
def countBelow (ps : List Int) (q : Int) : Int :=
  ((ps.filter (fun x => decide (x < q))).length : Int)

/-- The table that the spec gives for the removal of the positions `ps` from a
playlist: the entries at these positions are gone, every other entry of the
playlist has moved down by the number of removed positions below it, the entries
of the other playlists are as before. -/
def withoutPositions (playlistId : Int) (ps : List Int) (db : Table) : Table :=
  (db.filter (fun r => !decide (r.playlist_id = playlistId ∧ r.position ∈ ps))).map
    (fun r =>
      if r.playlist_id = playlistId then
        { r with position := r.position - countBelow ps r.position }
      else r)

/-- A rewriting `f` of positions that permutes the suffix `s+1..N` of `1..N` and
fixes the positions `1..s`. -/
def PermutesSuffix (s : Int) (N : Nat) (f : Int → Int) : Prop :=
  ∀ p : Int, 1 ≤ p → p ≤ N →
    (p ≤ s → f p = p) ∧ (s < p → s < f p ∧ f p ≤ N) ∧
      (∀ q : Int, 1 ≤ q → q ≤ N → f p = f q → p = q)

/-- The table `after` differs from the table `before` at most in the position
field of entries of the playlist `playlistId`: it holds the same number of rows,
row by row the same playlist and the same track, and every row of another
playlist is as it was. -/
def OnlyPositionsChanged (playlistId : Int) (before after : Table) : Prop :=
  after.length = before.length ∧
    ∀ (i : Nat) (r : PlaylistTrack), before[i]? = some r →
      ∃ r2 : PlaylistTrack, after[i]? = some r2 ∧ r2.playlist_id = r.playlist_id ∧
        r2.track_id = r.track_id ∧ (r.playlist_id ≠ playlistId → r2 = r)

/-! ## Properties of a playlist -/

/-- The positions `1, 2, ..., N`. -/
def positionRange (N : Nat) : List Int :=
  (List.range N).map (fun (k : Nat) => (k : Int) + 1)

/-- The positions held by the entries of a playlist, in table order. -/
def positionsOf (db : Table) (playlistId : Int) : List Int :=
  (db.filter (fun r => decide (r.playlist_id = playlistId))).map (fun r => r.position)

/-- Invariant I1 (density): the positions of the playlist are exactly
`1, ..., N`, each held once. -/
def Dense (db : Table) (playlistId : Int) (N : Nat) : Prop :=
  (positionsOf db playlistId).Perm (positionRange N)

instance (db : Table) (playlistId : Int) (N : Nat) : Decidable (Dense db playlistId N) := by
  unfold Dense; infer_instance

/-- The view shows all `N` entries of the playlist in ascending position order:
row `i` holds position `i + 1`. -/
def FullView (m : PlaylistTableModel) (N : Nat) : Prop :=
  m.rows.map (fun r => r.position) = positionRange N

instance (m : PlaylistTableModel) (N : Nat) : Decidable (FullView m N) := by
  unfold FullView; infer_instance

/-- A playlist whose `n` entries hold the tracks `100 + k` at the positions
`k = 1, ..., n`, for the examples. -/
def samplePlaylist (playlistId : Int) (n : Nat) : Table :=
  (List.range n).map (fun (k : Nat) => ⟨playlistId, 100 + ((k : Int) + 1), (k : Int) + 1⟩)

/-- A model bound to playlist `7` that holds `samplePlaylist 7 n`, every track
being in the library, with the view loaded. -/
def sampleModel (n : Nat) (locked : Bool) : PlaylistTableModel :=
  select
    { m_iPlaylistId := 7
      m_showAll := false
      PlaylistTracks := samplePlaylist 7 n
      library := (List.range n).map (fun (k : Nat) => ⟨100 + ((k : Int) + 1), false⟩)
      lockedPlaylists := if locked then [7] else []
      rows := [] }

/-- A model bound to playlist `7`, with its view loaded, whose table also holds
two entries of playlist `8`, stored out of position order. -/
def twoPlaylistModel : PlaylistTableModel :=
  select
    { m_iPlaylistId := 7
      m_showAll := false
      PlaylistTracks := samplePlaylist 7 3 ++ [⟨8, 102, 2⟩, ⟨8, 101, 1⟩]
      library := [⟨101, false⟩, ⟨102, false⟩, ⟨103, false⟩]
      lockedPlaylists := []
      rows := [] }

/-- A model whose view hides entries: playlist `7` holds five entries, the tracks
of the first three are marked `mixxx_deleted` in the library, and the view, which
leaves such tracks out, shows the two rows of the positions 4 and 5. -/
def filteredModel : PlaylistTableModel :=
  select
    { m_iPlaylistId := 7
      m_showAll := false
      PlaylistTracks := samplePlaylist 7 5
      library := [⟨101, true⟩, ⟨102, true⟩, ⟨103, true⟩, ⟨104, false⟩, ⟨105, false⟩]
      lockedPlaylists := []
      rows := [] }

/-- A model of three entries at the positions 1, 2 and 5, every track being in
the library, with the view loaded. -/
def gapModel : PlaylistTableModel :=
  select
    { m_iPlaylistId := 7
      m_showAll := false
      PlaylistTracks := [⟨7, 101, 1⟩, ⟨7, 102, 2⟩, ⟨7, 103, 5⟩]
      library := [⟨101, false⟩, ⟨102, false⟩, ⟨103, false⟩]
      lockedPlaylists := []
      rows := [] }

/-- A resolver that answers the id `trackId` for every location and leaves the
library as it is, for the examples. -/
def constantDao (trackId : Int) : TrackDAO :=
  { addTrack := fun library _ => (trackId, library)
    addTracks := fun library locations => (locations.map (fun _ => trackId), library) }

/-- Sequences of `qrand` values for a shuffle of four entries with
`RAND_MAX = 32767`.  The draw `int(q / 32768.0 * 4 + 1)` takes each of the values
`1, 2, 3, 4` for 8192 of the 32768 values of `q`, so four passes have `256`
equally likely sequences of draws; the sequence number `c`, for `c < 256`, draws
`1 +` the `k`-th digit of `c` in base 4 at pass `k`, and `qrandOfCode c` is a
sequence of `qrand` values that makes these draws. -/
def qrandOfCode (c : Nat) : Nat → Nat :=
  fun k => 8192 * (c / 4 ^ k % 4)

/-! ## General lemmas -/

theorem mem_positionRange (N : Nat) (p : Int) : p ∈ positionRange N ↔ 1 ≤ p ∧ p ≤ N := by
  unfold positionRange
  simp only [List.mem_map, List.mem_range]
  constructor
  · rintro ⟨k, hk, rfl⟩
    omega
  · intro h
    refine ⟨(p - 1).toNat, ?_, ?_⟩ <;> omega

theorem nodup_positionRange (N : Nat) : (positionRange N).Nodup := by
  unfold positionRange
  refine List.Nodup.map ?_ (List.nodup_range N)
  intro a b h
  simpa using h

theorem length_positionRange (N : Nat) : (positionRange N).length = N := by
  simp [positionRange]

theorem Dense.bounds {db : Table} {pid : Int} {N : Nat} (h : Dense db pid N)
    {r : PlaylistTrack} (hr : r ∈ db) (hp : r.playlist_id = pid) :
    1 ≤ r.position ∧ r.position ≤ N := by
  have hmem : r.position ∈ positionsOf db pid := by
    unfold positionsOf
    exact List.mem_map.mpr ⟨r, List.mem_filter.mpr ⟨hr, by simpa using hp⟩, rfl⟩
  exact (mem_positionRange N r.position).mp (h.subset hmem)

theorem select_PlaylistTracks (m : PlaylistTableModel) :
    (select m).PlaylistTracks = m.PlaylistTracks := rfl

/-- An `UPDATE` restricted to one playlist rewrites the positions of that
playlist and nothing else. -/
theorem sqlUpdate_eq_onPlaylist (pid : Int) (cond : PlaylistTrack → Bool) (C : Int → Prop)
    [DecidablePred C] (set : Int → Int)
    (h : ∀ r, cond r = true ↔ (C r.position ∧ r.playlist_id = pid)) (db : Table) :
    sqlUpdate cond set db = onPlaylist pid (fun p => if C p then set p else p) db := by
  unfold sqlUpdate onPlaylist
  apply List.map_congr_left
  intro r _
  by_cases hp : r.playlist_id = pid
  · by_cases hc : C r.position
    · have : cond r = true := (h r).mpr ⟨hc, hp⟩
      simp [this, hp, hc]
    · have : ¬ cond r = true := fun hh => hc ((h r).mp hh).1
      simp [this, hc]
  · have : ¬ cond r = true := fun hh => hp ((h r).mp hh).2
    simp [this, hp]

theorem onPlaylist_onPlaylist (pid : Int) (f g : Int → Int) (db : Table) :
    onPlaylist pid f (onPlaylist pid g db) = onPlaylist pid (fun p => f (g p)) db := by
  unfold onPlaylist
  rw [List.map_map]
  apply List.map_congr_left
  intro r _
  by_cases hp : r.playlist_id = pid <;> simp [hp]

theorem onPlaylist_congr (pid : Int) (f g : Int → Int) (db : Table)
    (h : ∀ r ∈ db, r.playlist_id = pid → f r.position = g r.position) :
    onPlaylist pid f db = onPlaylist pid g db := by
  unfold onPlaylist
  apply List.map_congr_left
  intro r hr
  by_cases hp : r.playlist_id = pid
  · simp [hp, h r hr hp]
  · simp [hp]

theorem onPlaylist_id (pid : Int) (db : Table) : onPlaylist pid (fun p => p) db = db := by
  unfold onPlaylist
  conv_rhs => rw [← List.map_id db]
  apply List.map_congr_left
  intro r _
  split_ifs <;> rfl

/-- The statements of `moveTrack`, each as a rewriting of positions. -/
theorem execAll_moveTrackStatements_lt (ok : Nat → Bool) (pid o n : Int) (h : n < o)
    (db : Table) :
    execAll ok 0 (moveTrackStatements pid o n) db =
      exec (ok 3) (onPlaylist pid (fun p => if p = -1 then n else p))
        (exec (ok 2) (onPlaylist pid (fun p => if p ≥ n then p + 1 else p))
          (exec (ok 1) (onPlaylist pid (fun p => if p > o then p - 1 else p))
            (exec (ok 0) (onPlaylist pid (fun p => if p = o then -1 else p)) db))) := by
  unfold moveTrackStatements
  simp only [h, if_true, execAll]
  have e0 : sqlUpdate (fun r => decide (r.position = o ∧ r.playlist_id = pid)) (fun _ => -1)
      = onPlaylist pid (fun p => if p = o then -1 else p) :=
    funext (sqlUpdate_eq_onPlaylist pid _ (fun p => p = o) _ (by intro r; simp))
  have e1 : sqlUpdate (fun r => decide (r.position > o ∧ r.playlist_id = pid)) (fun p => p - 1)
      = onPlaylist pid (fun p => if p > o then p - 1 else p) :=
    funext (sqlUpdate_eq_onPlaylist pid _ (fun p => p > o) _ (by intro r; simp))
  have e2 : sqlUpdate (fun r => decide (r.position ≥ n ∧ r.playlist_id = pid)) (fun p => p + 1)
      = onPlaylist pid (fun p => if p ≥ n then p + 1 else p) :=
    funext (sqlUpdate_eq_onPlaylist pid _ (fun p => p ≥ n) _ (by intro r; simp))
  have e3 : sqlUpdate (fun r => decide (r.position = -1 ∧ r.playlist_id = pid)) (fun _ => n)
      = onPlaylist pid (fun p => if p = -1 then n else p) :=
    funext (sqlUpdate_eq_onPlaylist pid _ (fun p => p = -1) _ (by intro r; simp))
  rw [e0, e1, e2, e3]

theorem execAll_moveTrackStatements_gt (ok : Nat → Bool) (pid o n : Int) (h : o < n)
    (db : Table) :
    execAll ok 0 (moveTrackStatements pid o n) db =
      exec (ok 2) (onPlaylist pid (fun p => if p = -1 then n else p))
        (exec (ok 1) (onPlaylist pid (fun p => if p > o ∧ p ≤ n then p - 1 else p))
          (exec (ok 0) (onPlaylist pid (fun p => if p = o then -1 else p)) db)) := by
  unfold moveTrackStatements
  have h' : ¬ n < o := by omega
  simp only [h', if_false, gt_iff_lt, h, if_true, execAll]
  have e0 : sqlUpdate (fun r => decide (r.position = o ∧ r.playlist_id = pid)) (fun _ => -1)
      = onPlaylist pid (fun p => if p = o then -1 else p) :=
    funext (sqlUpdate_eq_onPlaylist pid _ (fun p => p = o) _ (by intro r; simp))
  have e1 : sqlUpdate (fun r => decide (o < r.position ∧ r.position ≤ n ∧ r.playlist_id = pid))
      (fun p => p - 1)
      = onPlaylist pid (fun p => if p > o ∧ p ≤ n then p - 1 else p) :=
    funext (sqlUpdate_eq_onPlaylist pid _ (fun p => p > o ∧ p ≤ n) _
      (by intro r; simp [and_assoc]))
  have e3 : sqlUpdate (fun r => decide (r.position = -1 ∧ r.playlist_id = pid)) (fun _ => n)
      = onPlaylist pid (fun p => if p = -1 then n else p) :=
    funext (sqlUpdate_eq_onPlaylist pid _ (fun p => p = -1) _ (by intro r; simp))
  rw [e0, e1, e3]

theorem execAll_moveTrackStatements_eq (ok : Nat → Bool) (pid o : Int) (db : Table) :
    execAll ok 0 (moveTrackStatements pid o o) db = db := by
  unfold moveTrackStatements
  simp [execAll]

theorem positionsOf_onPlaylist (pid : Int) (f : Int → Int) (db : Table) :
    positionsOf (onPlaylist pid f db) pid = (positionsOf db pid).map f := by
  unfold positionsOf onPlaylist
  induction db with
  | nil => rfl
  | cons r t ih =>
    by_cases hp : r.playlist_id = pid
    · simp only [List.map_cons, hp, if_true, List.filter_cons, decide_True]
      exact congrArg _ ih
    · simp only [List.map_cons, hp, if_false, List.filter_cons, decide_False]
      exact ih

/-- A map that sends a duplicate-free list into itself injectively permutes it. -/
theorem perm_map_of_injOn {l : List Int} (f : Int → Int) (hl : l.Nodup)
    (hmem : ∀ x ∈ l, f x ∈ l) (hinj : ∀ x ∈ l, ∀ y ∈ l, f x = f y → x = y) :
    (l.map f).Perm l := by
  have hnd : (l.map f).Nodup := List.Nodup.map_on hinj hl
  have hsub : l.map f ⊆ l := by
    intro y hy
    obtain ⟨x, hx, rfl⟩ := List.mem_map.mp hy
    exact hmem x hx
  exact (List.subperm_of_subset hnd hsub).perm_of_length_le (by simp)

/-- Rewriting the positions of a dense playlist by a map that permutes `1..N`
leaves the playlist dense. -/
theorem Dense.onPlaylist {db : Table} {pid : Int} {N : Nat} (h : Dense db pid N)
    (f : Int → Int)
    (hmem : ∀ p : Int, 1 ≤ p → p ≤ N → 1 ≤ f p ∧ f p ≤ N)
    (hinj : ∀ p q : Int, 1 ≤ p → p ≤ N → 1 ≤ q → q ≤ N → f p = f q → p = q) :
    Dense (Mixxx.onPlaylist pid f db) pid N := by
  unfold Dense at *
  rw [positionsOf_onPlaylist]
  refine (h.map f).trans (perm_map_of_injOn f (nodup_positionRange N) ?_ ?_)
  · intro x hx
    have hb := (mem_positionRange N x).mp hx
    exact (mem_positionRange N _).mpr (hmem x hb.1 hb.2)
  · intro x hx y hy hxy
    have hbx := (mem_positionRange N x).mp hx
    have hby := (mem_positionRange N y).mp hy
    exact hinj x y hbx.1 hbx.2 hby.1 hby.2 hxy

/-- With every statement succeeding, the statements of a move between two
positions of a dense playlist have the net effect `movedPosition`. -/
theorem execAll_moveTrackStatements_dense (pid : Int) (N : Nat) (o n : Int) (db : Table)
    (hdense : Dense db pid N) (hO : 1 ≤ o ∧ o ≤ N) (hN : 1 ≤ n) :
    execAll allSucceed 0 (moveTrackStatements pid o n) db =
      onPlaylist pid (movedPosition o n) db := by
  rcases lt_trichotomy n o with hlt | heq | hgt
  · rw [execAll_moveTrackStatements_lt _ _ _ _ hlt]
    simp only [allSucceed, exec, if_true, onPlaylist_onPlaylist]
    apply onPlaylist_congr
    intro r hr hp
    have hb := hdense.bounds hr hp
    unfold movedPosition
    split_ifs <;> omega
  · subst heq
    rw [execAll_moveTrackStatements_eq]
    conv_lhs => rw [← onPlaylist_id pid db]
    apply onPlaylist_congr
    intro r hr hp
    unfold movedPosition
    split_ifs <;> omega
  · rw [execAll_moveTrackStatements_gt _ _ _ _ hgt]
    simp only [allSucceed, exec, if_true, onPlaylist_onPlaylist]
    apply onPlaylist_congr
    intro r hr hp
    have hb := hdense.bounds hr hp
    unfold movedPosition
    split_ifs <;> omega

/-! ## Move: net effect -/

/-- C1. On a playlist whose positions are exactly `1..N`, with both positions
in `[1, N]`, `moveTrack` puts the entry formerly at `oldPosition` at
`newPosition`, moves every entry between the two (the one at `newPosition`
included) by one toward the vacated slot, and leaves every other entry, of this
playlist or of another, as it was; tracks are never touched. -/
theorem moveTrack_net_effect (m : PlaylistTableModel) (sourceIndex destIndex : QModelIndex)
    (N : Nat) (oldPosition newPosition : Int)
    (hdense : Dense m.PlaylistTracks m.m_iPlaylistId N)
    (hold : positionData m sourceIndex = oldPosition)
    (hnew : positionData m destIndex = newPosition)
    (hO : 1 ≤ oldPosition ∧ oldPosition ≤ N) (hN : 1 ≤ newPosition ∧ newPosition ≤ N) :
    (moveTrack m sourceIndex destIndex).PlaylistTracks =
      m.PlaylistTracks.map (fun r =>
        if r.playlist_id = m.m_iPlaylistId then
          { r with position :=
              if r.position = oldPosition then newPosition
              else if oldPosition < r.position ∧ r.position ≤ newPosition then r.position - 1
              else if newPosition ≤ r.position ∧ r.position < oldPosition then r.position + 1
              else r.position }
        else r) := by
  unfold moveTrack moveTrackWith
  simp only [hold, hnew]
  have h0 : ¬ newPosition < 0 := by omega
  have h1 : ¬ newPosition = 0 := by omega
  simp only [h0, h1, if_false, select_PlaylistTracks]
  rw [execAll_moveTrackStatements_dense _ N _ _ _ hdense hO hN.1]
  rfl

/-- C1, at the example of the spec: on positions `[1,2,3,4,5]`, moving the entry
at position 4 to position 2 yields the order `[1,4,2,3,5]`. -/
theorem moveTrack_net_effect_witness :
    Dense (sampleModel 5 false).PlaylistTracks (sampleModel 5 false).m_iPlaylistId 5 ∧
    positionData (sampleModel 5 false) ⟨3⟩ = 4 ∧
    positionData (sampleModel 5 false) ⟨1⟩ = 2 ∧
    (moveTrack (sampleModel 5 false) ⟨3⟩ ⟨1⟩).PlaylistTracks =
      [⟨7, 101, 1⟩, ⟨7, 102, 3⟩, ⟨7, 103, 4⟩, ⟨7, 104, 2⟩, ⟨7, 105, 5⟩] :=
  ⟨by decide, by decide, by decide,
    (moveTrack_net_effect (sampleModel 5 false) ⟨3⟩ ⟨1⟩ 5 4 2 (by decide) (by decide)
      (by decide) (by decide) (by decide)).trans (by decide)⟩

/-! ## Move: density -/

/-- A duplicate-free list of integers strictly between `a` and `b` has at most
`b - a - 1` elements. -/
theorem length_le_of_nodup_between {l : List Int} (hl : l.Nodup) {a b : Int}
    (h : ∀ x ∈ l, a < x ∧ x < b) : l.length ≤ (b - a - 1).toNat := by
  have hsub : l.toFinset ⊆ Finset.Ioo a b := by
    intro x hx
    rw [List.mem_toFinset] at hx
    exact Finset.mem_Ioo.mpr (h x hx)
  have hcard := Finset.card_le_card hsub
  rwa [List.toFinset_card_of_nodup hl, Int.card_Ioo] at hcard

theorem countBelow_nonneg (ps : List Int) (q : Int) : 0 ≤ countBelow ps q := by
  unfold countBelow
  omega

theorem countBelow_eq_zero {ps : List Int} {q : Int} (h : ∀ x ∈ ps, q ≤ x) :
    countBelow ps q = 0 := by
  unfold countBelow
  have : ps.filter (fun x => decide (x < q)) = [] := by
    rw [List.filter_eq_nil_iff]
    intro x hx
    have := h x hx
    simp only [decide_eq_true_eq]
    omega
  rw [this]
  rfl

/-- Below `q` and above `a` there is room for at most `q - a - 1` listed positions. -/
theorem countBelow_le {ps : List Int} (hnd : ps.Nodup) {a q : Int} (h : ∀ x ∈ ps, a < x)
    (haq : a < q) : countBelow ps q ≤ q - a - 1 := by
  unfold countBelow
  have hlen := length_le_of_nodup_between (hnd.filter (fun x => decide (x < q)))
    (a := a) (b := q) (by
      intro x hx
      rw [List.mem_filter] at hx
      exact ⟨h x hx.1, by simpa using hx.2⟩)
  omega

theorem countBelow_cons (a : Int) (t : List Int) (q : Int) :
    countBelow (a :: t) q = (if a < q then 1 else 0) + countBelow t q := by
  unfold countBelow
  by_cases h : a < q
  · simp only [List.filter_cons, h, decide_True, if_true, List.length_cons]
    push_cast
    omega
  · simp only [List.filter_cons, h, decide_False, if_false]
    simp

theorem countBelow_perm {l₁ l₂ : List Int} (h : l₁.Perm l₂) (q : Int) :
    countBelow l₁ q = countBelow l₂ q := by
  unfold countBelow
  rw [(h.filter _).length_eq]

theorem withoutPositions_perm (pid : Int) {l₁ l₂ : List Int} (h : l₁.Perm l₂) (db : Table) :
    withoutPositions pid l₁ db = withoutPositions pid l₂ db := by
  unfold withoutPositions
  have hf : (fun r : PlaylistTrack => !decide (r.playlist_id = pid ∧ r.position ∈ l₁)) =
      (fun r : PlaylistTrack => !decide (r.playlist_id = pid ∧ r.position ∈ l₂)) := by
    funext r
    simp only [h.mem_iff]
  have hg : (fun r : PlaylistTrack => if r.playlist_id = pid then
        ({ r with position := r.position - countBelow l₁ r.position } : PlaylistTrack) else r) =
      (fun r : PlaylistTrack => if r.playlist_id = pid then
        ({ r with position := r.position - countBelow l₂ r.position } : PlaylistTrack) else r) := by
    funext r
    simp only [countBelow_perm h]
  rw [hf, hg]

theorem withoutPositions_nil (pid : Int) (db : Table) : withoutPositions pid [] db = db := by
  unfold withoutPositions
  have hc : ∀ q, countBelow [] q = 0 := fun q => rfl
  simp only [List.not_mem_nil, and_false, decide_False, Bool.not_false, List.filter_true, hc,
    sub_zero]
  conv_rhs => rw [← List.map_id db]
  apply List.map_congr_left
  intro r _
  split_ifs <;> rfl

/-- One single removal at a position below all the positions removed before it. -/
theorem removeTrackFromPlaylist_withoutPositions (pid a : Int) (t : List Int) (db : Table)
    (hnd : t.Nodup) (hlt : ∀ x ∈ t, a < x) :
    removeTrackFromPlaylist (withoutPositions pid t db) pid a =
      withoutPositions pid (a :: t) db := by
  unfold removeTrackFromPlaylist sqlUpdate withoutPositions
  rw [List.filter_map, List.filter_filter, List.map_map]
  have key : ∀ q : Int, q ∉ t → ((q - countBelow t q = a ↔ q = a) ∧
      (q ≠ a → q - countBelow (a :: t) q =
        if q - countBelow t q > a then q - countBelow t q - 1 else q - countBelow t q)) := by
    intro q hq
    rw [countBelow_cons]
    rcases lt_or_le a q with h | h
    · have := countBelow_le hnd hlt h
      have := countBelow_nonneg t q
      refine ⟨by omega, fun _ => ?_⟩
      split_ifs <;> omega
    · have h0 : countBelow t q = 0 := countBelow_eq_zero (fun x hx => by
        have := hlt x hx
        omega)
      rw [h0]
      refine ⟨by omega, fun _ => ?_⟩
      split_ifs <;> omega
  have hfilter : List.filter
      (fun r : PlaylistTrack =>
        ((fun r : PlaylistTrack => !decide (r.playlist_id = pid ∧ r.position = a)) ∘
          fun r : PlaylistTrack => if r.playlist_id = pid then
            ({ r with position := r.position - countBelow t r.position } : PlaylistTrack)
            else r) r &&
        !decide (r.playlist_id = pid ∧ r.position ∈ t)) db =
      List.filter (fun r => !decide (r.playlist_id = pid ∧ r.position ∈ a :: t)) db := by
    apply List.filter_congr
    intro r _
    by_cases hp : r.playlist_id = pid
    · by_cases hm : r.position ∈ t
      · simp [hp, hm]
      · have := (key r.position hm).1
        simp [hp, hm, this]
    · simp [hp]
  rw [hfilter]
  apply List.map_congr_left
  intro r hr
  rw [List.mem_filter] at hr
  by_cases hp : r.playlist_id = pid
  · have hr2 := hr.2
    simp only [hp, true_and, Bool.not_eq_true', decide_eq_false_iff_not, List.mem_cons,
      not_or] at hr2
    have := (key r.position hr2.2).2 hr2.1
    simp only [Function.comp, hp, if_true, true_and, this]
    split_ifs <;> simp_all
  · simp [hp]

/-- The walk of `removeTracks` over a strictly ascending list, from its back
to its front. -/
theorem foldr_removeTrackFromPlaylist (pid : Int) (db : Table) :
    ∀ l : List Int, l.Sorted (· < ·) →
      l.foldr (fun p acc => removeTrackFromPlaylist acc pid p) db = withoutPositions pid l db
  | [], _ => (withoutPositions_nil pid db).symm
  | a :: t, h => by
    have ht := List.sorted_cons.mp h
    rw [List.foldr_cons, foldr_removeTrackFromPlaylist pid db t ht.2]
    exact removeTrackFromPlaylist_withoutPositions pid a t db ht.2.nodup ht.1

theorem positionsOf_withoutPositions (pid : Int) (ps : List Int) (db : Table) :
    positionsOf (withoutPositions pid ps db) pid =
      ((positionsOf db pid).filter (fun q => !decide (q ∈ ps))).map
        (fun q => q - countBelow ps q) := by
  unfold positionsOf withoutPositions
  induction db with
  | nil => rfl
  | cons r t ih =>
    by_cases hp : r.playlist_id = pid
    · by_cases hm : r.position ∈ ps
      · simp only [List.filter_cons, hp, hm, and_self, decide_True, Bool.not_true,
          Bool.false_eq_true, if_false, if_true, List.map_cons]
        exact ih
      · simp only [List.filter_cons, hp, hm, and_false, decide_False, Bool.not_false,
          if_true, List.map_cons, decide_True]
        exact congrArg _ ih
    · simp only [List.filter_cons, hp, false_and, decide_False, Bool.not_false, if_true,
        List.map_cons, if_false, Bool.false_eq_true]
      exact ih

/-- The positions listed in `ps` that lie below `q` and those that do not make up `ps`. -/
theorem countBelow_add_above (ps : List Int) (q : Int) :
    countBelow ps q + ((ps.filter (fun x => !decide (x < q))).length : Int) = ps.length := by
  unfold countBelow
  have := List.length_eq_length_filter_add (l := ps) (fun x => decide (x < q))
  omega

/-- The new position of a kept entry lies in `1..N-k`. -/
theorem shifted_bounds {ps : List Int} {N : Nat} (hnd : ps.Nodup)
    (hv : ∀ p ∈ ps, 1 ≤ p ∧ p ≤ (N : Int)) {q : Int} (hq : q ∉ ps) (h1 : 1 ≤ q) (h2 : q ≤ N) :
    1 ≤ q - countBelow ps q ∧ q - countBelow ps q ≤ ((N - ps.length : Nat) : Int) ∧
      ps.length ≤ N := by
  have hlow : countBelow ps q ≤ q - 0 - 1 :=
    countBelow_le hnd (fun x hx => by have := hv x hx; omega) (by omega)
  have hsum := countBelow_add_above ps q
  have habove := length_le_of_nodup_between (hnd.filter (fun x => !decide (x < q)))
    (a := q) (b := (N : Int) + 1) (by
      intro x hx
      rw [List.mem_filter] at hx
      have hx2 : ¬ x < q := by simpa using hx.2
      have hne : x ≠ q := fun h => hq (h ▸ hx.1)
      have := hv x hx.1
      omega)
  have hnn := countBelow_nonneg ps q
  omega

/-- Kept entries keep their relative order: the shift is strictly monotone on
the positions that are not removed. -/
theorem shifted_strictMono {ps : List Int} (hnd : ps.Nodup) {p q : Int} (hp : p ∉ ps)
    (hpq : p < q) : p - countBelow ps p < q - countBelow ps q := by
  have hsplit : countBelow ps q =
      countBelow ps p + ((ps.filter (fun x => decide (x < q) && !decide (x < p))).length : Int) := by
    have h1 := List.length_eq_length_filter_add (l := ps.filter (fun x => decide (x < q)))
      (fun x => decide (x < p))
    rw [List.filter_filter, List.filter_filter] at h1
    have h2 : ps.filter (fun x => decide (x < p) && decide (x < q)) =
        ps.filter (fun x => decide (x < p)) := by
      apply List.filter_congr
      intro x _
      by_cases hx : x < p
      · have : x < q := by omega
        simp [hx, this]
      · simp [hx]
    have h3 : ps.filter (fun x => !decide (x < p) && decide (x < q)) =
        ps.filter (fun x => decide (x < q) && !decide (x < p)) := by
      apply List.filter_congr
      intro x _
      exact Bool.and_comm _ _
    rw [h2, h3] at h1
    unfold countBelow
    omega
  have hmid := length_le_of_nodup_between
    (hnd.filter (fun x => decide (x < q) && !decide (x < p))) (a := p) (b := q) (by
      intro x hx
      rw [List.mem_filter] at hx
      have hx2 : x < q ∧ ¬ x < p := by simpa using hx.2
      have hne : x ≠ p := fun h => hp (h ▸ hx.1)
      omega)
  omega

theorem length_filter_not_mem {ps : List Int} {N : Nat} (hnd : ps.Nodup)
    (hv : ∀ p ∈ ps, 1 ≤ p ∧ p ≤ (N : Int)) :
    ((positionRange N).filter (fun q => !decide (q ∈ ps))).length = N - ps.length := by
  have h1 := List.length_eq_length_filter_add (l := positionRange N) (fun q => decide (q ∈ ps))
  have h2 : ((positionRange N).filter (fun q => decide (q ∈ ps))).Perm ps := by
    rw [List.perm_ext_iff_of_nodup ((nodup_positionRange N).filter _) hnd]
    intro a
    rw [List.mem_filter, mem_positionRange]
    constructor
    · intro h
      simpa using h.2
    · intro h
      exact ⟨hv a h, by simpa using h⟩
  rw [length_positionRange, h2.length_eq] at h1
  omega

/-- Removing distinct valid positions from a dense playlist leaves a dense one. -/
theorem Dense.withoutPositions {db : Table} {pid : Int} {N : Nat} (h : Dense db pid N)
    {ps : List Int} (hnd : ps.Nodup) (hv : ∀ p ∈ ps, 1 ≤ p ∧ p ≤ (N : Int)) :
    Dense (Mixxx.withoutPositions pid ps db) pid (N - ps.length) := by
  unfold Dense at *
  rw [positionsOf_withoutPositions]
  refine ((h.filter _).map _).trans ?_
  have hmemf : ∀ q, q ∈ (positionRange N).filter (fun q => !decide (q ∈ ps)) ↔
      (1 ≤ q ∧ q ≤ (N : Int)) ∧ q ∉ ps := by
    intro q
    rw [List.mem_filter, mem_positionRange]
    simp
  have hnodup : (((positionRange N).filter (fun q => !decide (q ∈ ps))).map
      (fun q => q - countBelow ps q)).Nodup := by
    refine List.Nodup.map_on ?_ ((nodup_positionRange N).filter _)
    intro x hx y hy hxy
    have hx2 := (hmemf x).mp hx
    have hy2 := (hmemf y).mp hy
    rcases lt_trichotomy x y with hlt | heq | hgt
    · have := shifted_strictMono hnd hx2.2 hlt
      omega
    · exact heq
    · have := shifted_strictMono hnd hy2.2 hgt
      omega
  have hsub : ((positionRange N).filter (fun q => !decide (q ∈ ps))).map
      (fun q => q - countBelow ps q) ⊆ positionRange (N - ps.length) := by
    intro y hy
    obtain ⟨x, hx, rfl⟩ := List.mem_map.mp hy
    have hx2 := (hmemf x).mp hx
    have hb := shifted_bounds hnd hv hx2.2 hx2.1.1 hx2.1.2
    exact (mem_positionRange _ _).mpr ⟨hb.1, hb.2.1⟩
  refine (List.subperm_of_subset hnodup hsub).perm_of_length_le ?_
  rw [length_positionRange, List.length_map, length_filter_not_mem hnd hv]

theorem removeTracks_table (m : PlaylistTableModel) (indices : List QModelIndex)
    (hunlocked : isPlaylistLocked m m.m_iPlaylistId = false)
    (hnd : (indices.map (positionData m)).Nodup) :
    (removeTracks m indices).PlaylistTracks =
      withoutPositions m.m_iPlaylistId (indices.map (positionData m)) m.PlaylistTracks := by
  unfold removeTracks
  simp only [hunlocked, Bool.false_eq_true, if_false, select_PlaylistTracks, List.foldl_reverse]
  have hperm : (qSort (indices.map (positionData m))).Perm (indices.map (positionData m)) :=
    List.perm_insertionSort _ _
  have hsorted : (qSort (indices.map (positionData m))).Sorted (· < ·) :=
    (List.sorted_insertionSort _ _).lt_of_le (hperm.nodup_iff.mpr hnd)
  rw [foldr_removeTrackFromPlaylist _ _ _ hsorted]
  exact withoutPositions_perm _ hperm _

/-! ## Removal of distinct positions -/

/-- C3. On an unlocked playlist whose positions are exactly `1..N`, for indices
that name `k` distinct valid positions `ps`, `removeTracks` deletes exactly the
entries at these positions; every entry kept moves down by the number of removed
positions below it, which keeps the original relative order; the `N - k` entries
kept occupy exactly the positions `1..N-k`; other playlists are untouched. -/
theorem removeTracks_distinct_valid (m : PlaylistTableModel) (indices : List QModelIndex)
    (N : Nat) (ps : List Int)
    (hunlocked : isPlaylistLocked m m.m_iPlaylistId = false)
    (hdense : Dense m.PlaylistTracks m.m_iPlaylistId N)
    (hps : indices.map (positionData m) = ps)
    (hnd : ps.Nodup) (hv : ∀ p ∈ ps, 1 ≤ p ∧ p ≤ (N : Int)) :
    (removeTracks m indices).PlaylistTracks =
        (m.PlaylistTracks.filter
          (fun r => !decide (r.playlist_id = m.m_iPlaylistId ∧ r.position ∈ ps))).map
          (fun r =>
            if r.playlist_id = m.m_iPlaylistId then
              { r with position := r.position - countBelow ps r.position }
            else r) ∧
      (∀ p q : Int, p ∉ ps → p < q → p - countBelow ps p < q - countBelow ps q) ∧
      Dense (removeTracks m indices).PlaylistTracks m.m_iPlaylistId (N - indices.length) := by
  subst hps
  have htable := removeTracks_table m indices hunlocked hnd
  refine ⟨htable, fun p q hp hpq => shifted_strictMono hnd hp hpq, ?_⟩
  rw [htable]
  have := hdense.withoutPositions hnd hv
  rwa [List.length_map] at this

/-- C3, at an example: five entries, the positions 4 and 2 are removed, the
entries formerly at 1, 3, 5 are left at 1, 2, 3. -/
theorem removeTracks_distinct_valid_witness :
    isPlaylistLocked (sampleModel 5 false) (sampleModel 5 false).m_iPlaylistId = false ∧
    Dense (sampleModel 5 false).PlaylistTracks (sampleModel 5 false).m_iPlaylistId 5 ∧
    [(⟨3⟩ : QModelIndex), ⟨1⟩].map (positionData (sampleModel 5 false)) = [4, 2] ∧
    (removeTracks (sampleModel 5 false) [⟨3⟩, ⟨1⟩]).PlaylistTracks =
      [⟨7, 101, 1⟩, ⟨7, 103, 2⟩, ⟨7, 105, 3⟩] ∧
    Dense (removeTracks (sampleModel 5 false) [⟨3⟩, ⟨1⟩]).PlaylistTracks
      (sampleModel 5 false).m_iPlaylistId (5 - 2) :=
  have h := removeTracks_distinct_valid (sampleModel 5 false) [⟨3⟩, ⟨1⟩] 5 [4, 2]
    (by decide) (by decide) (by decide) (by decide) (by decide)
  ⟨by decide, by decide, by decide, h.1.trans (by decide), h.2.2⟩

/-! ## Shuffle: lemmas -/

theorem rowCount_of_fullView {m : PlaylistTableModel} {N : Nat} (h : FullView m N) :
    rowCount m = N := by
  unfold FullView at h
  have := congrArg List.length h
  rw [List.length_map, length_positionRange] at this
  unfold rowCount
  rw [this]

theorem positionData_of_fullView {m : PlaylistTableModel} {N : Nat} (h : FullView m N)
    (i : Int) (h0 : 0 ≤ i) (h1 : i < N) : positionData m ⟨i⟩ = i + 1 := by
  unfold FullView at h
  have hget : (m.rows.map (fun r => r.position))[i.toNat]? = (positionRange N)[i.toNat]? := by
    rw [h]
  have hlt : i.toNat < N := by omega
  unfold positionRange at hget
  rw [List.getElem?_map, List.getElem?_map, List.getElem?_range hlt] at hget
  unfold positionData
  simp only [h0, if_true]
  cases hrow : m.rows[i.toNat]? with
  | none => rw [hrow] at hget; simp at hget
  | some r =>
    rw [hrow] at hget
    simp only [Option.map_some', Option.some.injEq] at hget
    simp only [hget]
    omega

/-! ### The arithmetic of the draw -/

theorem floor_le_roundHalfEven (y : ℚ) : ⌊y⌋ ≤ roundHalfEven y := by
  unfold roundHalfEven
  split_ifs <;> omega

theorem roundHalfEven_intCast (n : Int) : roundHalfEven (n : ℚ) = n := by
  unfold roundHalfEven
  simp

/-- The rounding of a value that lies half-way between an odd integer and the
even integer above it. -/
theorem roundHalfEven_tie_up (n : Int) (hn : n % 2 = 0) :
    roundHalfEven ((n : ℚ) - 1 / 2) = n := by
  have hfloor : ⌊(n : ℚ) - 1 / 2⌋ = n - 1 := by
    rw [Int.floor_eq_iff]
    push_cast
    constructor <;> linarith
  unfold roundHalfEven
  rw [hfloor]
  have h1 : ¬ ((n : ℚ) - 1 / 2 - ((n - 1 : Int) : ℚ) < 1 / 2) := by
    push_cast
    linarith
  have h2 : ¬ ((1 : ℚ) / 2 < (n : ℚ) - 1 / 2 - ((n - 1 : Int) : ℚ)) := by
    push_cast
    linarith
  have h3 : ¬ ((n - 1) % 2 = 0) := by omega
  rw [if_neg h1, if_neg h2, if_neg h3]
  omega

theorem log_two_eq {x : ℚ} {e : Int} (h1 : (2 : ℚ) ^ e ≤ x) (h2 : x < (2 : ℚ) ^ (e + 1)) :
    Int.log 2 x = e := by
  have hpos : 0 < x := lt_of_lt_of_le (zpow_pos (by norm_num) e) h1
  have ha : e ≤ Int.log 2 x := by
    rw [← Int.zpow_le_iff_le_log (by norm_num) hpos]
    simpa using h1
  have hb : Int.log 2 x < e + 1 := by
    rw [← Int.lt_zpow_iff_log_lt (by norm_num) hpos]
    simpa using h2
  omega

theorem roundDouble_of_binade (x : ℚ) (e : Int) (h1 : (2 : ℚ) ^ e ≤ |x|)
    (h2 : |x| < (2 : ℚ) ^ (e + 1)) (h53 : |x| < (2 : ℚ) ^ (53 : ℤ)) :
    roundDouble x = (roundHalfEven (x / (2 : ℚ) ^ (e - 52)) : ℚ) * (2 : ℚ) ^ (e - 52) := by
  have hpos : 0 < |x| := lt_of_lt_of_le (zpow_pos (by norm_num) e) h1
  have hx : x ≠ 0 := abs_pos.mp hpos
  unfold roundDouble
  rw [if_neg (by
    rintro (h | h)
    · exact hx h
    · exact absurd h (not_le.mpr h53)), log_two_eq h1 h2]

theorem log_two_bracket {x : ℚ} (hpos : 0 < x) :
    (2 : ℚ) ^ Int.log 2 x ≤ x ∧ x < (2 : ℚ) ^ (Int.log 2 x + 1) := by
  constructor
  · simpa using Int.zpow_log_le_self (b := 2) (by norm_num) hpos
  · simpa using Int.lt_zpow_succ_log_self (b := 2) (by norm_num) x

/-- Rounding never goes below an integer that the value has reached. -/
theorem le_roundDouble (z : Int) (x : ℚ) (h : (z : ℚ) ≤ x) : (z : ℚ) ≤ roundDouble x := by
  unfold roundDouble
  split_ifs with hc
  · exact h
  · rw [not_or, not_le] at hc
    have hpos : 0 < |x| := abs_pos.mpr hc.1
    obtain ⟨hlo, _⟩ := log_two_bracket hpos
    have he : Int.log 2 |x| < 53 := by
      have : (2 : ℚ) ^ Int.log 2 |x| < (2 : ℚ) ^ (53 : ℤ) := lt_of_le_of_lt hlo hc.2
      exact (zpow_lt_zpow_iff_right₀ (by norm_num)).mp this
    set e := Int.log 2 |x| with hedef
    have hu : (0 : ℚ) < (2 : ℚ) ^ (e - 52) := zpow_pos (by norm_num) _
    have hinv : (1 : ℚ) / (2 : ℚ) ^ (e - 52) = (((2 : Int) ^ (52 - e).toNat : Int) : ℚ) := by
      have hnat : ((52 - e).toNat : Int) = 52 - e := Int.toNat_of_nonneg (by omega)
      push_cast
      rw [← zpow_natCast, hnat, one_div, ← zpow_neg]
      congr 1
      omega
    have hz : (z : ℚ) / (2 : ℚ) ^ (e - 52) = ((z * (2 : Int) ^ (52 - e).toNat : Int) : ℚ) := by
      rw [div_eq_mul_one_div, hinv]
      push_cast
      rfl
    have hle : (z : ℚ) / (2 : ℚ) ^ (e - 52) ≤ x / (2 : ℚ) ^ (e - 52) :=
      div_le_div_of_nonneg_right h hu.le
    rw [hz] at hle
    have hfl : z * (2 : Int) ^ (52 - e).toNat ≤ roundHalfEven (x / (2 : ℚ) ^ (e - 52)) :=
      le_trans (Int.le_floor.mpr hle) (floor_le_roundHalfEven _)
    have hq : ((z * (2 : Int) ^ (52 - e).toNat : Int) : ℚ) ≤
        (roundHalfEven (x / (2 : ℚ) ^ (e - 52)) : ℚ) := by exact_mod_cast hfl
    calc (z : ℚ) = (z : ℚ) / (2 : ℚ) ^ (e - 52) * (2 : ℚ) ^ (e - 52) := by
          field_simp
      _ = ((z * (2 : Int) ^ (52 - e).toNat : Int) : ℚ) * (2 : ℚ) ^ (e - 52) := by rw [hz]
      _ ≤ (roundHalfEven (x / (2 : ℚ) ^ (e - 52)) : ℚ) * (2 : ℚ) ^ (e - 52) :=
          mul_le_mul_of_nonneg_right hq hu.le

/-- A value `k / 2 ^ j` with `k < 2 ^ 53` is a double: rounding leaves it as it is. -/
theorem roundDouble_dyadic (k j : Nat) (hk : k < 2 ^ 53) :
    roundDouble ((k : ℚ) / (2 : ℚ) ^ j) = (k : ℚ) / (2 : ℚ) ^ j := by
  rcases Nat.eq_zero_or_pos k with rfl | hk0
  · unfold roundDouble
    simp
  unfold roundDouble
  split_ifs with hc
  · rfl
  · rw [not_or, not_le] at hc
    have hxpos : (0 : ℚ) < (k : ℚ) / (2 : ℚ) ^ j := by positivity
    rw [abs_of_pos hxpos] at hc ⊢
    obtain ⟨hlo, _⟩ := log_two_bracket hxpos
    set e := Int.log 2 ((k : ℚ) / (2 : ℚ) ^ j) with hedef
    have hk53 : (k : ℚ) < (2 : ℚ) ^ (53 : ℤ) := by
      have h53 : (2 : ℚ) ^ (53 : ℤ) = ((2 ^ 53 : Nat) : ℚ) := by norm_num
      rw [h53]
      exact_mod_cast hk
    have hej : e + j < 53 := by
      have h2j : (0 : ℚ) < (2 : ℚ) ^ j := by positivity
      have : (2 : ℚ) ^ (e + (j : ℤ)) ≤ (k : ℚ) := by
        rw [zpow_add₀ (by norm_num), zpow_natCast]
        exact (le_div_iff₀ h2j).mp hlo
      exact (zpow_lt_zpow_iff_right₀ (by norm_num)).mp (lt_of_le_of_lt this hk53)
    have hnat : ((52 - e - j).toNat : Int) = 52 - e - j := Int.toNat_of_nonneg (by omega)
    have hquot : (k : ℚ) / (2 : ℚ) ^ j / (2 : ℚ) ^ (e - 52) =
        (((k : Int) * (2 : Int) ^ (52 - e - j).toNat : Int) : ℚ) := by
      push_cast
      rw [← zpow_natCast (2 : ℚ) (52 - e - j).toNat, hnat, ← zpow_natCast (2 : ℚ) j,
        div_div, ← zpow_add₀ (by norm_num), div_eq_mul_inv, ← zpow_neg]
      congr 2
      omega
    rw [hquot, roundHalfEven_intCast]
    push_cast
    rw [← zpow_natCast (2 : ℚ) (52 - e - j).toNat, hnat, mul_assoc, ← zpow_add₀ (by norm_num),
      div_eq_mul_inv, ← zpow_natCast (2 : ℚ) j, ← zpow_neg]
    congr 2
    omega

/-- The draw of `shuffleTracks` is never below the start position. -/
theorem randomPosition_lower (RAND_MAX q : Nat) (n s : Int) (hs : 0 ≤ s) (hsn : s ≤ n) :
    s + 1 ≤ randomPosition RAND_MAX q n s := by
  unfold randomPosition
  have hR : (0 : ℚ) < roundDouble ((RAND_MAX : ℚ) + 1) := by
    have h := le_roundDouble 1 ((RAND_MAX : ℚ) + 1) (by
      push_cast
      have : (0 : ℚ) ≤ (RAND_MAX : ℚ) := Nat.cast_nonneg _
      linarith)
    have h1 : ((1 : Int) : ℚ) = 1 := by norm_num
    rw [h1] at h
    linarith
  have ha : (0 : ℚ) ≤ roundDouble ((q : ℚ) / roundDouble ((RAND_MAX : ℚ) + 1)) := by
    have h := le_roundDouble 0 ((q : ℚ) / roundDouble ((RAND_MAX : ℚ) + 1)) (by
      push_cast
      exact div_nonneg (Nat.cast_nonneg _) hR.le)
    simpa using h
  have hd : (0 : ℚ) ≤ ((n - s : Int) : ℚ) := by
    have : (0 : Int) ≤ n - s := by omega
    exact_mod_cast this
  have hb : (0 : ℚ) ≤ roundDouble (roundDouble ((q : ℚ) / roundDouble ((RAND_MAX : ℚ) + 1)) *
      ((n - s : Int) : ℚ)) := by
    have h := le_roundDouble 0 _ (by
      push_cast
      exact_mod_cast mul_nonneg ha hd)
    simpa using h
  have hc : (s : ℚ) ≤ roundDouble (roundDouble (roundDouble ((q : ℚ) /
      roundDouble ((RAND_MAX : ℚ) + 1)) * ((n - s : Int) : ℚ)) + (s : ℚ)) :=
    le_roundDouble s _ (by linarith)
  have hd2 : ((s + 1 : Int) : ℚ) ≤ roundDouble (roundDouble (roundDouble (roundDouble ((q : ℚ) /
      roundDouble ((RAND_MAX : ℚ) + 1)) * ((n - s : Int) : ℚ)) + (s : ℚ)) + 1) :=
    le_roundDouble (s + 1) _ (by
      have hcast : ((s + 1 : Int) : ℚ) = (s : ℚ) + 1 := by push_cast; rfl
      rw [hcast]
      linarith)
  have hs' : (0 : ℚ) ≤ ((s + 1 : Int) : ℚ) := by
    have : (0 : Int) ≤ s + 1 := by omega
    exact_mod_cast this
  unfold toInt
  rw [if_pos (le_trans hs' hd2)]
  exact Int.le_floor.mpr hd2

/-- When `RAND_MAX + 1` is a power of two and `(n + 1) * (RAND_MAX + 1)` stays
below `2 ^ 53`, every operation of the draw is exact and the draw is an integer
division. -/
theorem randomPosition_eq_div_nat (RAND_MAX q j n s : Nat) (hR : RAND_MAX + 1 = 2 ^ j)
    (hq : q ≤ RAND_MAX) (hsn : s ≤ n) (hexact : (n + 1) * 2 ^ j < 2 ^ 53) :
    randomPosition RAND_MAX q (n : Int) (s : Int) = ((q * (n - s) / 2 ^ j + s + 1 : Nat) : Int) := by
  have hjpos : 0 < 2 ^ j := by positivity
  have hqlt : q < 2 ^ j := by omega
  have hn1 : 2 ^ j ≤ (n + 1) * 2 ^ j := Nat.le_mul_of_pos_left _ (by omega)
  have hqd : q * (n - s) ≤ 2 ^ j * (n - s) := Nat.mul_le_mul_right _ hqlt.le
  have hsplit : (n + 1) * 2 ^ j = 2 ^ j * (n - s) + (s + 1) * 2 ^ j := by
    have : n + 1 = (n - s) + (s + 1) := by omega
    rw [this]
    ring
  have e1 : roundDouble ((RAND_MAX : ℚ) + 1) = (2 : ℚ) ^ j := by
    have h := roundDouble_dyadic (2 ^ j) 0 (by omega)
    have hc : ((RAND_MAX : ℚ) + 1) = ((2 ^ j : Nat) : ℚ) / (2 : ℚ) ^ 0 := by
      rw [← hR]
      push_cast
      simp
    rw [hc, h]
    push_cast
    simp
  have e2 : roundDouble ((q : ℚ) / (2 : ℚ) ^ j) = (q : ℚ) / (2 : ℚ) ^ j :=
    roundDouble_dyadic q j (by omega)
  have e3 : roundDouble ((q : ℚ) / (2 : ℚ) ^ j * (((n : Int) - (s : Int) : Int) : ℚ)) =
      ((q * (n - s) : Nat) : ℚ) / (2 : ℚ) ^ j := by
    have hc : (q : ℚ) / (2 : ℚ) ^ j * (((n : Int) - (s : Int) : Int) : ℚ) =
        ((q * (n - s) : Nat) : ℚ) / (2 : ℚ) ^ j := by
      rw [Nat.cast_mul, Nat.cast_sub hsn]
      push_cast
      ring
    rw [hc]
    exact roundDouble_dyadic _ j (by omega)
  have e4 : roundDouble (((q * (n - s) : Nat) : ℚ) / (2 : ℚ) ^ j + ((s : Int) : ℚ)) =
      ((q * (n - s) + s * 2 ^ j : Nat) : ℚ) / (2 : ℚ) ^ j := by
    have hc : ((q * (n - s) : Nat) : ℚ) / (2 : ℚ) ^ j + ((s : Int) : ℚ) =
        ((q * (n - s) + s * 2 ^ j : Nat) : ℚ) / (2 : ℚ) ^ j := by
      push_cast
      field_simp
    rw [hc]
    exact roundDouble_dyadic _ j (by
      have : s * 2 ^ j ≤ (s + 1) * 2 ^ j := Nat.mul_le_mul_right _ (by omega)
      omega)
  have e5 : roundDouble (((q * (n - s) + s * 2 ^ j : Nat) : ℚ) / (2 : ℚ) ^ j + 1) =
      ((q * (n - s) + (s + 1) * 2 ^ j : Nat) : ℚ) / (2 : ℚ) ^ j := by
    have hc : ((q * (n - s) + s * 2 ^ j : Nat) : ℚ) / (2 : ℚ) ^ j + 1 =
        ((q * (n - s) + (s + 1) * 2 ^ j : Nat) : ℚ) / (2 : ℚ) ^ j := by
      push_cast
      field_simp
      ring
    rw [hc]
    exact roundDouble_dyadic _ j (by
      have hlt : q * (n - s) < 2 ^ j * (n - s) ∨ n - s = 0 := by
        rcases Nat.eq_zero_or_pos (n - s) with h0 | h0
        · exact Or.inr h0
        · exact Or.inl (Nat.mul_lt_mul_of_pos_right hqlt h0)
      omega)
  unfold randomPosition
  rw [e1, e2, e3, e4, e5]
  unfold toInt
  rw [if_pos (by positivity)]
  have hfloor : ⌊((q * (n - s) + (s + 1) * 2 ^ j : Nat) : ℚ) / (2 : ℚ) ^ j⌋ =
      ((q * (n - s) + (s + 1) * 2 ^ j : Nat) : Int) / ((2 ^ j : Nat) : Int) := by
    have h := Rat.floor_intCast_div_natCast ((q * (n - s) + (s + 1) * 2 ^ j : Nat) : Int) (2 ^ j)
    rw [← h]
    push_cast
    rfl
  rw [hfloor]
  norm_cast
  rw [Nat.add_mul_div_right _ _ hjpos]
  omega

theorem randomPosition_rounds_up :
    randomPosition 2147483647 2147483647 4194304 4194303 = 4194305 := by
  unfold randomPosition
  have e1 : roundDouble (((2147483647 : Nat) : ℚ) + 1) = 2147483648 := by
    have h := roundDouble_dyadic 2147483648 0 (by norm_num)
    norm_num at h ⊢
    exact h
  have e2 : roundDouble (((2147483647 : Nat) : ℚ) / 2147483648) = 2147483647 / 2147483648 := by
    have h := roundDouble_dyadic 2147483647 31 (by norm_num)
    norm_num at h ⊢
    exact h
  have e3 : roundDouble ((2147483647 : ℚ) / 2147483648 * (((4194304 : Int) - 4194303 : Int) : ℚ)) =
      2147483647 / 2147483648 := by
    have h := roundDouble_dyadic 2147483647 31 (by norm_num)
    norm_num at h ⊢
    exact h
  have e4 : roundDouble ((2147483647 : ℚ) / 2147483648 + ((4194303 : Int) : ℚ)) =
      9007199254740991 / 2147483648 := by
    have h := roundDouble_dyadic 9007199254740991 31 (by norm_num)
    norm_num at h ⊢
    exact h
  have e5 : roundDouble ((9007199254740991 : ℚ) / 2147483648 + 1) = 4194305 := by
    rw [roundDouble_of_binade _ 22 (by norm_num [abs_of_pos]) (by norm_num [abs_of_pos])
      (by norm_num [abs_of_pos])]
    have hy : ((9007199254740991 : ℚ) / 2147483648 + 1) / (2 : ℚ) ^ ((22 : ℤ) - 52) =
        ((4503600701112320 : Int) : ℚ) - 1 / 2 := by
      norm_num
    rw [hy, roundHalfEven_tie_up _ (by decide)]
    norm_num
  rw [e1, e2, e3, e4, e5]
  unfold toInt
  norm_num

theorem randomPosition_eq_div (RAND_MAX q j : Nat) (n s : Int) (hR : RAND_MAX + 1 = 2 ^ j)
    (hq : q ≤ RAND_MAX) (hs : 0 ≤ s) (hsn : s ≤ n)
    (hexact : (n + 1) * (2 : Int) ^ j < (2 : Int) ^ 53) :
    randomPosition RAND_MAX q n s = (q : Int) * (n - s) / ((RAND_MAX : Int) + 1) + s + 1 := by
  obtain ⟨sN, rfl⟩ := Int.eq_ofNat_of_zero_le hs
  obtain ⟨nN, rfl⟩ := Int.eq_ofNat_of_zero_le (le_trans hs hsn)
  have hsn2 : sN ≤ nN := by exact_mod_cast hsn
  have hex2 : (nN + 1) * 2 ^ j < 2 ^ 53 := by exact_mod_cast hexact
  rw [randomPosition_eq_div_nat RAND_MAX q j nN sN hR hq hsn2 hex2]
  have hRi : (RAND_MAX : Int) + 1 = ((2 ^ j : Nat) : Int) := by exact_mod_cast hR
  rw [hRi]
  push_cast [Nat.cast_sub hsn2]
  rfl

/-- In the exact range the draw lies in the suffix
`[shuffleStartRow + 1, numOfTracks]`. -/
theorem randomPosition_bounds (RAND_MAX q j : Nat) (n s : Int) (hR : RAND_MAX + 1 = 2 ^ j)
    (hq : q ≤ RAND_MAX) (hs : 0 ≤ s) (hsn : s < n)
    (hexact : (n + 1) * (2 : Int) ^ j < (2 : Int) ^ 53) :
    s + 1 ≤ randomPosition RAND_MAX q n s ∧ randomPosition RAND_MAX q n s ≤ n := by
  refine ⟨randomPosition_lower RAND_MAX q n s hs hsn.le, ?_⟩
  rw [randomPosition_eq_div RAND_MAX q j n s hR hq hs hsn.le hexact]
  have hRpos : (0 : Int) < (RAND_MAX : Int) + 1 := by omega
  have hlt : (q : Int) * (n - s) / ((RAND_MAX : Int) + 1) < n - s := by
    rw [Int.ediv_lt_iff_lt_mul hRpos]
    have hq2 : (q : Int) < (RAND_MAX : Int) + 1 := by omega
    have hd : (0 : Int) < n - s := by omega
    calc (q : Int) * (n - s) < ((RAND_MAX : Int) + 1) * (n - s) :=
          mul_lt_mul_of_pos_right hq2 hd
      _ = (n - s) * ((RAND_MAX : Int) + 1) := mul_comm _ _
  omega

theorem permutesSuffix_id (s : Int) (N : Nat) : PermutesSuffix s N (fun p => p) := by
  intro p _ h2
  exact ⟨fun _ => rfl, fun h => ⟨h, h2⟩, fun q _ _ h => h⟩

theorem PermutesSuffix.comp {s : Int} {N : Nat} {f g : Int → Int} (hs : 0 ≤ s)
    (hf : PermutesSuffix s N f) (hg : PermutesSuffix s N g) :
    PermutesSuffix s N (fun p => g (f p)) := by
  have hrange : ∀ p : Int, 1 ≤ p → p ≤ N → 1 ≤ f p ∧ f p ≤ N := by
    intro p h1 h2
    obtain ⟨ha, hb, _⟩ := hf p h1 h2
    rcases le_or_lt p s with h | h
    · rw [ha h]
      exact ⟨h1, h2⟩
    · have := hb h
      omega
  intro p h1 h2
  obtain ⟨hfa, hfb, hfc⟩ := hf p h1 h2
  obtain ⟨hp1, hp2⟩ := hrange p h1 h2
  obtain ⟨hga, hgb, hgc⟩ := hg (f p) hp1 hp2
  refine ⟨fun h => ?_, fun h => ?_, fun q hq1 hq2 h => ?_⟩
  · have e := hfa h
    show g (f p) = p
    rw [e] at hga
    rw [e]
    exact hga h
  · exact hgb (hfb h).1
  · obtain ⟨hq1', hq2'⟩ := hrange q hq1 hq2
    exact hfc q hq1 hq2 (hgc (f q) hq1' hq2' h)

/-- The three statements of one pass swap the positions `o` and `r`. -/
theorem permutesSuffix_swap (s : Int) (N : Nat) (o r : Int) (hs : 0 ≤ s)
    (ho : s < o ∧ o ≤ N) (hr : s < r ∧ r ≤ N) :
    PermutesSuffix s N (fun p =>
      (fun p : Int => if p = -1 then r else p)
        ((fun p : Int => if p = r then o else p) ((fun p : Int => if p = o then -1 else p) p))) := by
  intro p h1 h2
  refine ⟨fun h => ?_, fun h => ?_, fun q hq1 hq2 => ?_⟩
  · simp only
    split_ifs <;> omega
  · simp only
    split_ifs <;> omega
  · simp only
    split_ifs <;> omega

theorem execAll_swapStatements (pid o r : Int) (db : Table) :
    execAll allSucceed 0 (swapStatements pid o r) db =
      onPlaylist pid (fun p =>
        (fun p : Int => if p = -1 then r else p)
          ((fun p : Int => if p = r then o else p)
            ((fun p : Int => if p = o then -1 else p) p))) db := by
  unfold swapStatements
  simp only [execAll, exec, allSucceed, if_true]
  have e0 : sqlUpdate (fun x => decide (x.position = o ∧ x.playlist_id = pid)) (fun _ => -1)
      = onPlaylist pid (fun p => if p = o then -1 else p) :=
    funext (sqlUpdate_eq_onPlaylist pid _ (fun p => p = o) _ (by intro x; simp))
  have e1 : sqlUpdate (fun x => decide (x.position = r ∧ x.playlist_id = pid)) (fun _ => o)
      = onPlaylist pid (fun p => if p = r then o else p) :=
    funext (sqlUpdate_eq_onPlaylist pid _ (fun p => p = r) _ (by intro x; simp))
  have e2 : sqlUpdate (fun x => decide (x.position = -1 ∧ x.playlist_id = pid)) (fun _ => r)
      = onPlaylist pid (fun p => if p = -1 then r else p) :=
    funext (sqlUpdate_eq_onPlaylist pid _ (fun p => p = -1) _ (by intro x; simp))
  rw [e0, e1, e2, onPlaylist_onPlaylist, onPlaylist_onPlaylist]

/-- The loop of `shuffleTracks`: as long as every pass handles a position of the
suffix and draws a position of the suffix, the passes together permute the
suffix. -/
theorem foldl_shuffleStep (RAND_MAX : Nat) (qrand : Nat → Nat) (m : PlaylistTableModel)
    (n s : Int) (N : Nat) (hs : 0 ≤ s) :
    ∀ (ks : List Nat) (db : Table),
      (∀ k ∈ ks, (s < positionData m ⟨n - 1 - (k : Int)⟩ ∧
          positionData m ⟨n - 1 - (k : Int)⟩ ≤ N) ∧
        (s < randomPosition RAND_MAX (qrand k) n s ∧
          randomPosition RAND_MAX (qrand k) n s ≤ N)) →
      ∃ f : Int → Int, PermutesSuffix s N f ∧
        ks.foldl (shuffleStep RAND_MAX qrand m n s) db = onPlaylist m.m_iPlaylistId f db
  | [], db, _ => ⟨fun p => p, permutesSuffix_id s N, (onPlaylist_id _ db).symm⟩
  | k :: ks, db, h => by
    have hk := h k (List.mem_cons_self k ks)
    obtain ⟨f, hf, hfold⟩ := foldl_shuffleStep RAND_MAX qrand m n s N hs ks
      (shuffleStep RAND_MAX qrand m n s db k) (fun j hj => h j (List.mem_cons_of_mem k hj))
    rw [List.foldl_cons, hfold]
    unfold shuffleStep
    simp only
    rw [execAll_swapStatements, onPlaylist_onPlaylist]
    exact ⟨_, (permutesSuffix_swap s N _ _ hs hk.1 hk.2).comp hs hf, rfl⟩

/-- The net effect of `shuffleTracks` on a full view in ascending order, in the
range where the arithmetic of the draw is exact: `RAND_MAX + 1` a power of two and
`(N + 1) * (RAND_MAX + 1)` below `2 ^ 53`. -/
theorem shuffleTracks_table (RAND_MAX : Nat) (qrand : Nat → Nat) (m : PlaylistTableModel)
    (shuffleStartIndex : QModelIndex) (N j : Nat)
    (hview : FullView m N) (hs : 0 ≤ shuffleStartIndex.row)
    (hq : ∀ k, qrand k ≤ RAND_MAX) (hR : RAND_MAX + 1 = 2 ^ j)
    (hexact : ((N : Int) + 1) * (2 : Int) ^ j < (2 : Int) ^ 53) :
    ∃ f : Int → Int, PermutesSuffix shuffleStartIndex.row N f ∧
      (shuffleTracks RAND_MAX qrand m shuffleStartIndex).PlaylistTracks =
        onPlaylist m.m_iPlaylistId f m.PlaylistTracks := by
  unfold shuffleTracks
  simp only [select_PlaylistTracks, rowCount_of_fullView hview]
  apply foldl_shuffleStep RAND_MAX qrand m N shuffleStartIndex.row N hs
  intro k hk
  rw [List.mem_range] at hk
  have hlt : shuffleStartIndex.row < N := by omega
  have hpos := positionData_of_fullView hview ((N : Int) - 1 - (k : Int)) (by omega) (by omega)
  have hrand := randomPosition_bounds RAND_MAX (qrand k) j N shuffleStartIndex.row hR (hq k) hs
    hlt hexact
  rw [hpos]
  omega

/-- The loop of `shuffleTracks`: as long as every pass handles a position above
`s` and draws a position above `s`, the passes leave the positions `1..s` alone. -/
theorem foldl_shuffleStep_prefix (RAND_MAX : Nat) (qrand : Nat → Nat) (m : PlaylistTableModel)
    (n s : Int) :
    ∀ (ks : List Nat) (db : Table),
      (∀ k ∈ ks, s < positionData m ⟨n - 1 - (k : Int)⟩ ∧
        s < randomPosition RAND_MAX (qrand k) n s) →
      ∃ f : Int → Int, (∀ p : Int, 1 ≤ p → p ≤ s → f p = p) ∧
        ks.foldl (shuffleStep RAND_MAX qrand m n s) db = onPlaylist m.m_iPlaylistId f db
  | [], db, _ => ⟨fun p => p, fun _ _ _ => rfl, (onPlaylist_id _ db).symm⟩
  | k :: ks, db, h => by
    have hk := h k (List.mem_cons_self k ks)
    obtain ⟨f, hf, hfold⟩ := foldl_shuffleStep_prefix RAND_MAX qrand m n s ks
      (shuffleStep RAND_MAX qrand m n s db k) (fun j hj => h j (List.mem_cons_of_mem k hj))
    rw [List.foldl_cons, hfold]
    unfold shuffleStep
    simp only
    rw [execAll_swapStatements, onPlaylist_onPlaylist]
    refine ⟨_, ?_, rfl⟩
    intro p h1 h2
    have hstep : (fun p : Int => if p = -1 then randomPosition RAND_MAX (qrand k) n s else p)
        ((fun p : Int => if p = randomPosition RAND_MAX (qrand k) n s then
            positionData m ⟨n - 1 - (k : Int)⟩ else p)
          ((fun p : Int => if p = positionData m ⟨n - 1 - (k : Int)⟩ then -1 else p) p)) = p := by
      simp only
      split_ifs <;> omega
    simp only at hstep ⊢
    rw [hstep]
    exact hf p h1 h2

/-- On a full view in ascending order, for a start row inside the view,
`shuffleTracks` rewrites positions and leaves the positions below the start
position alone, whatever the size of the playlist. -/
theorem shuffleTracks_table_prefix (RAND_MAX : Nat) (qrand : Nat → Nat) (m : PlaylistTableModel)
    (shuffleStartIndex : QModelIndex) (N : Nat)
    (hview : FullView m N) (hs : 0 ≤ shuffleStartIndex.row) :
    ∃ f : Int → Int, (∀ p : Int, 1 ≤ p → p ≤ shuffleStartIndex.row → f p = p) ∧
      (shuffleTracks RAND_MAX qrand m shuffleStartIndex).PlaylistTracks =
        onPlaylist m.m_iPlaylistId f m.PlaylistTracks := by
  unfold shuffleTracks
  simp only [select_PlaylistTracks, rowCount_of_fullView hview]
  apply foldl_shuffleStep_prefix RAND_MAX qrand m N shuffleStartIndex.row
  intro k hk
  rw [List.mem_range] at hk
  have hlt : shuffleStartIndex.row < N := by omega
  have hpos := positionData_of_fullView hview ((N : Int) - 1 - (k : Int)) (by omega) (by omega)
  have hrand := randomPosition_lower RAND_MAX (qrand k) N shuffleStartIndex.row hs hlt.le
  rw [hpos]
  omega

/-! ## Shuffle: frame and conservation -/

/-- C4. On a playlist shown as a full view in ascending position order, for every
start row `s` with `0 ≤ s < N` and every sequence of `qrand` values in `[0, RAND_MAX]`,
`shuffleTracks` keeps the number of rows of the table and leaves every entry of
the playlist whose position lies in `[1, s]`, that is below the start position
`s + 1`, with its track and its position. -/
theorem shuffleTracks_prefix_unchanged (RAND_MAX : Nat) (qrand : Nat → Nat)
    (m : PlaylistTableModel) (shuffleStartIndex : QModelIndex) (N : Nat)
    (hview : FullView m N) (hs : 0 ≤ shuffleStartIndex.row)
    (hsN : shuffleStartIndex.row < N) (hq : ∀ k, qrand k ≤ RAND_MAX) :
    (shuffleTracks RAND_MAX qrand m shuffleStartIndex).PlaylistTracks.length =
        m.PlaylistTracks.length ∧
      ∀ (i : Nat) (r : PlaylistTrack), m.PlaylistTracks[i]? = some r →
        r.playlist_id = m.m_iPlaylistId → 1 ≤ r.position →
        r.position ≤ shuffleStartIndex.row →
        (shuffleTracks RAND_MAX qrand m shuffleStartIndex).PlaylistTracks[i]? = some r := by
  obtain ⟨f, hf, htable⟩ := shuffleTracks_table_prefix RAND_MAX qrand m shuffleStartIndex N hview hs
  rw [htable]
  unfold onPlaylist
  refine ⟨List.length_map _ _, ?_⟩
  intro i r hi hp h1 h2
  have _hrange : r.position < N ∧ ∀ k, qrand k ≤ RAND_MAX := ⟨by omega, hq⟩
  have hfix := hf r.position h1 h2
  rw [List.getElem?_map, hi]
  cases r
  simp_all

/-- C4, at an example: five entries, the shuffle starts at row 2 (position 3),
`qrand` returns 12345 at every call and `RAND_MAX` is 32767. -/
theorem shuffleTracks_prefix_unchanged_witness :
    FullView (sampleModel 5 false) 5 ∧
    (shuffleTracks 32767 (fun _ => 12345) (sampleModel 5 false) ⟨2⟩).PlaylistTracks.length =
        (sampleModel 5 false).PlaylistTracks.length ∧
      ∀ (i : Nat) (r : PlaylistTrack), (sampleModel 5 false).PlaylistTracks[i]? = some r →
        r.playlist_id = (sampleModel 5 false).m_iPlaylistId → 1 ≤ r.position →
        r.position ≤ (⟨2⟩ : QModelIndex).row →
        (shuffleTracks 32767 (fun _ => 12345) (sampleModel 5 false) ⟨2⟩).PlaylistTracks[i]? =
          some r :=
  ⟨by decide,
    shuffleTracks_prefix_unchanged 32767 (fun _ => 12345) (sampleModel 5 false) ⟨2⟩ 5
      (by decide) (by decide) (by decide) (fun _ => (by decide : 12345 ≤ 32767))⟩

/-! ## Locked playlists -/

/-- C6, evaluated on the code: `moveTrack` never asks whether the playlist is
locked.  On a locked playlist of three entries, moving the entry at position 1 to
position 3 rewrites the positions `1, 2, 3` of the table rows to `3, 1, 2`. -/
theorem moveTrack_on_locked_playlist :
    isPlaylistLocked (sampleModel 3 true) (sampleModel 3 true).m_iPlaylistId = true ∧
    (sampleModel 3 true).PlaylistTracks = [⟨7, 101, 1⟩, ⟨7, 102, 2⟩, ⟨7, 103, 3⟩] ∧
    positionData (sampleModel 3 true) ⟨0⟩ = 1 ∧
    positionData (sampleModel 3 true) ⟨2⟩ = 3 ∧
    (moveTrack (sampleModel 3 true) ⟨0⟩ ⟨2⟩).PlaylistTracks =
      [⟨7, 101, 3⟩, ⟨7, 102, 1⟩, ⟨7, 103, 2⟩] := by
  decide

/-- C7. On a locked playlist, `removeTracks`, for every list of indices, and
`removeTrack`, for every index, return the model as it was: no entry is removed
and no position is modified. -/
theorem removeTracks_locked (m : PlaylistTableModel) (indices : List QModelIndex)
    (index : QModelIndex) (hlocked : isPlaylistLocked m m.m_iPlaylistId = true) :
    removeTracks m indices = m ∧ removeTrack m index = m := by
  unfold removeTracks removeTrack
  simp only [hlocked, if_true, and_self]

/-- C7, at an example: a locked playlist of three entries. -/
theorem removeTracks_locked_witness :
    isPlaylistLocked (sampleModel 3 true) (sampleModel 3 true).m_iPlaylistId = true ∧
    removeTracks (sampleModel 3 true) [⟨0⟩, ⟨2⟩] = sampleModel 3 true ∧
    removeTrack (sampleModel 3 true) ⟨1⟩ = sampleModel 3 true :=
  ⟨by decide, removeTracks_locked (sampleModel 3 true) [⟨0⟩, ⟨2⟩] ⟨1⟩ (by decide)⟩

/-! ## Removal: order of the input -/

/-- C9. Two lists of indices whose positions are permutations of each other
make `removeTracks` produce the same model, whatever the playlist. -/
theorem removeTracks_perm (m : PlaylistTableModel) (indices₁ indices₂ : List QModelIndex)
    (h : (indices₁.map (positionData m)).Perm (indices₂.map (positionData m))) :
    removeTracks m indices₁ = removeTracks m indices₂ := by
  have hsort : qSort (indices₁.map (positionData m)) = qSort (indices₂.map (positionData m)) :=
    List.eq_of_perm_of_sorted
      (((List.perm_insertionSort _ _).trans h).trans (List.perm_insertionSort _ _).symm)
      (List.sorted_insertionSort _ _) (List.sorted_insertionSort _ _)
  unfold removeTracks
  simp only [hsort]

/-- C9, at the example of the spec: on five entries, removing the positions
`2, 4` and removing the positions `4, 2` both leave the entries formerly at
`1, 3, 5` at the positions `1, 2, 3`. -/
theorem removeTracks_perm_witness :
    ([(⟨1⟩ : QModelIndex), ⟨3⟩].map (positionData (sampleModel 5 false))).Perm
      ([(⟨3⟩ : QModelIndex), ⟨1⟩].map (positionData (sampleModel 5 false))) ∧
    [(⟨1⟩ : QModelIndex), ⟨3⟩].map (positionData (sampleModel 5 false)) = [2, 4] ∧
    removeTracks (sampleModel 5 false) [⟨1⟩, ⟨3⟩] = removeTracks (sampleModel 5 false) [⟨3⟩, ⟨1⟩] ∧
    (removeTracks (sampleModel 5 false) [⟨3⟩, ⟨1⟩]).PlaylistTracks =
      [⟨7, 101, 1⟩, ⟨7, 103, 2⟩, ⟨7, 105, 3⟩] :=
  ⟨by decide, by decide,
    removeTracks_perm (sampleModel 5 false) [⟨1⟩, ⟨3⟩] [⟨3⟩, ⟨1⟩] (by decide), by decide⟩

/-! ## Removal: repeated positions -/

theorem removeTrackFromPlaylist_eq (db : Table) (pid a : Int) :
    removeTrackFromPlaylist db pid a =
      onPlaylist pid (fun q => if q > a then q - 1 else q)
        (db.filter (fun r => !decide (r.playlist_id = pid ∧ r.position = a))) := by
  unfold removeTrackFromPlaylist
  exact sqlUpdate_eq_onPlaylist pid _ (fun q => q > a) _ (by intro r; simp [and_comm]) _

theorem filter_onPlaylist (pid : Int) (f : Int → Int) (b : Int) (db : Table) :
    (onPlaylist pid f db).filter (fun r => !decide (r.playlist_id = pid ∧ r.position = b)) =
      onPlaylist pid f
        (db.filter (fun r => !decide (r.playlist_id = pid ∧ f r.position = b))) := by
  unfold onPlaylist
  rw [List.filter_map]
  congr 1
  apply List.filter_congr
  intro r _
  by_cases hp : r.playlist_id = pid <;> simp [Function.comp, hp]

theorem removeTrackFromPlaylist_twice_eq (db : Table) (pid a b : Int) :
    removeTrackFromPlaylist (removeTrackFromPlaylist db pid a) pid b =
      onPlaylist pid
        (fun q => (fun q : Int => if q > b then q - 1 else q)
          ((fun q : Int => if q > a then q - 1 else q) q))
        (db.filter (fun r =>
          !decide (r.playlist_id = pid ∧
            (fun q : Int => if q > a then q - 1 else q) r.position = b) &&
          !decide (r.playlist_id = pid ∧ r.position = a))) := by
  rw [removeTrackFromPlaylist_eq (removeTrackFromPlaylist db pid a), removeTrackFromPlaylist_eq db,
    filter_onPlaylist, List.filter_filter, onPlaylist_onPlaylist]

/-- A second removal at the same position removes the entry that followed. -/
theorem removeTrackFromPlaylist_same_twice (db : Table) (pid p : Int) :
    removeTrackFromPlaylist (removeTrackFromPlaylist db pid p) pid p =
      removeTrackFromPlaylist (removeTrackFromPlaylist db pid (p + 1)) pid p := by
  rw [removeTrackFromPlaylist_twice_eq, removeTrackFromPlaylist_twice_eq]
  have hfilter : db.filter (fun r =>
        !decide (r.playlist_id = pid ∧
          (fun q : Int => if q > p then q - 1 else q) r.position = p) &&
        !decide (r.playlist_id = pid ∧ r.position = p)) =
      db.filter (fun r =>
        !decide (r.playlist_id = pid ∧
          (fun q : Int => if q > p + 1 then q - 1 else q) r.position = p) &&
        !decide (r.playlist_id = pid ∧ r.position = p + 1)) := by
    apply List.filter_congr
    intro r _
    by_cases hp : r.playlist_id = pid
    · simp only [hp, true_and]
      have h1 : ((if r.position > p then r.position - 1 else r.position) = p) ↔
          (r.position = p ∨ r.position = p + 1) := by
        split_ifs <;> omega
      have h2 : ((if r.position > p + 1 then r.position - 1 else r.position) = p) ↔
          r.position = p := by
        split_ifs <;> omega
      by_cases ha : r.position = p <;> by_cases hb : r.position = p + 1 <;>
        simp [h1, h2, ha, hb]
    · simp [hp]
  rw [hfilter]
  apply onPlaylist_congr
  intro r hr _
  rw [List.mem_filter] at hr
  have hr2 := hr.2
  by_cases hp : r.playlist_id = pid
  · simp only [hp, true_and, Bool.and_eq_true, Bool.not_eq_true', decide_eq_false_iff_not] at hr2
    have := hr2.1
    have := hr2.2
    simp only
    split_ifs at * <;> omega
  · contradiction

/-- The sorted form of a list that holds the values `a ≤ b` next to `rest`, with
`a ≤ x` or `b ≤ x` decided by `x ≤ a`. -/
theorem qSort_split (a b : Int) (rest l : List Int) (hab : a ≤ b)
    (hb : ∀ x ∈ rest, a < x → b ≤ x) (h : l.Perm (a :: b :: rest)) :
    qSort l = qSort (rest.filter (fun x => decide (x ≤ a))) ++
      a :: b :: qSort (rest.filter (fun x => !decide (x ≤ a))) := by
  have hpA : (qSort (rest.filter (fun x => decide (x ≤ a)))).Perm
      (rest.filter (fun x => decide (x ≤ a))) := List.perm_insertionSort _ _
  have hpB : (qSort (rest.filter (fun x => !decide (x ≤ a)))).Perm
      (rest.filter (fun x => !decide (x ≤ a))) := List.perm_insertionSort _ _
  have hsA : (qSort (rest.filter (fun x => decide (x ≤ a)))).Sorted (· ≤ ·) :=
    List.sorted_insertionSort _ _
  have hsB : (qSort (rest.filter (fun x => !decide (x ≤ a)))).Sorted (· ≤ ·) :=
    List.sorted_insertionSort _ _
  have hA : ∀ x ∈ qSort (rest.filter (fun x => decide (x ≤ a))), x ≤ a := by
    intro x hx
    have := (List.mem_filter.mp (hpA.subset hx)).2
    simpa using this
  have hB : ∀ x ∈ qSort (rest.filter (fun x => !decide (x ≤ a))), b ≤ x := by
    intro x hx
    have hm := List.mem_filter.mp (hpB.subset hx)
    have hlt : a < x := by simpa using hm.2
    exact hb x hm.1 hlt
  apply List.eq_of_perm_of_sorted (r := (· ≤ ·)) _ (List.sorted_insertionSort _ _)
  · unfold List.Sorted
    rw [List.pairwise_append]
    refine ⟨hsA, ?_, ?_⟩
    · rw [List.pairwise_cons, List.pairwise_cons]
      refine ⟨?_, ?_, hsB⟩
      · intro x hx
        rcases List.mem_cons.mp hx with rfl | hx
        · exact hab
        · have := hB x hx
          omega
      · exact hB
    · intro x hx y hy
      have := hA x hx
      rcases List.mem_cons.mp hy with rfl | hy
      · exact this
      · rcases List.mem_cons.mp hy with rfl | hy
        · omega
        · have := hB y hy
          omega
  · refine ((List.perm_insertionSort _ _).trans h).trans ?_
    have hrest : rest.Perm (qSort (rest.filter (fun x => decide (x ≤ a))) ++
        qSort (rest.filter (fun x => !decide (x ≤ a)))) :=
      (List.filter_append_perm (fun x => decide (x ≤ a)) rest).symm.trans
        (hpA.symm.append hpB.symm)
    exact ((hrest.cons b).cons a).trans
      ((List.perm_middle.symm.cons a).trans List.perm_middle.symm)

/-- The walk of `removeTracks` over a sorted list in which `p` stands twice
equals the walk over the list in which the second `p` is replaced by `p + 1`. -/
theorem foldr_remove_repeated (pid p : Int) (A B : List Int) (db : Table) :
    (A ++ p :: p :: B).foldr (fun q acc => removeTrackFromPlaylist acc pid q) db =
      (A ++ p :: (p + 1) :: B).foldr (fun q acc => removeTrackFromPlaylist acc pid q) db := by
  simp only [List.foldr_append, List.foldr_cons]
  rw [removeTrackFromPlaylist_same_twice]

/-- C10, as stated, fails: the input is sorted but not deduplicated.  On three
entries, the input positions `2, 2` remove the entries at 2 and at 3 and leave
one entry, where the input `2` removes one entry and leaves two. -/
theorem removeTracks_not_deduplicated :
    isPlaylistLocked (sampleModel 3 false) (sampleModel 3 false).m_iPlaylistId = false ∧
    [(⟨1⟩ : QModelIndex), ⟨1⟩].map (positionData (sampleModel 3 false)) = [2, 2] ∧
    [(⟨1⟩ : QModelIndex)].map (positionData (sampleModel 3 false)) = [2] ∧
    (removeTracks (sampleModel 3 false) [⟨1⟩, ⟨1⟩]).PlaylistTracks = [⟨7, 101, 1⟩] ∧
    (removeTracks (sampleModel 3 false) [⟨1⟩]).PlaylistTracks = [⟨7, 101, 1⟩, ⟨7, 103, 2⟩] ∧
    removeTracks (sampleModel 3 false) [⟨1⟩, ⟨1⟩] ≠ removeTracks (sampleModel 3 false) [⟨1⟩] := by
  decide

/-- C10, amended.  `removeTracks` performs one single removal per listed
occurrence, highest position first.  A position `p` listed twice therefore
removes the entry at `p` and the entry that followed it: the input `p, p, rest`,
in any order, gives the same model as the input `p, p + 1, rest`. -/
theorem removeTracks_repeated (m : PlaylistTableModel) (indices₁ indices₂ : List QModelIndex)
    (p : Int) (rest : List Int)
    (h₁ : (indices₁.map (positionData m)).Perm (p :: p :: rest))
    (h₂ : (indices₂.map (positionData m)).Perm (p :: (p + 1) :: rest)) :
    removeTracks m indices₁ = removeTracks m indices₂ := by
  have e₁ := qSort_split p p rest _ (le_refl p) (fun x _ hx => by omega) h₁
  have e₂ := qSort_split p (p + 1) rest _ (by omega) (fun x _ hx => by omega) h₂
  unfold removeTracks
  simp only [List.foldl_reverse, e₁, e₂, foldr_remove_repeated]

/-- C10, amended, at an example: on three entries the input positions `2, 2`
give the same model as the input positions `2, 3`. -/
theorem removeTracks_repeated_witness :
    ([(⟨1⟩ : QModelIndex), ⟨1⟩].map (positionData (sampleModel 3 false))).Perm
      (2 :: 2 :: []) ∧
    ([(⟨1⟩ : QModelIndex), ⟨2⟩].map (positionData (sampleModel 3 false))).Perm
      (2 :: (2 + 1) :: []) ∧
    removeTracks (sampleModel 3 false) [⟨1⟩, ⟨1⟩] =
      removeTracks (sampleModel 3 false) [⟨1⟩, ⟨2⟩] :=
  ⟨by decide, by decide,
    removeTracks_repeated (sampleModel 3 false) [⟨1⟩, ⟨1⟩] [⟨1⟩, ⟨2⟩] 2 []
      (by decide) (by decide)⟩

/-! ## Move: failing statements -/

theorem onPlaylist_eq_self {pid : Int} {f : Int → Int} :
    ∀ {db : Table}, onPlaylist pid f db = db →
      ∀ r ∈ db, r.playlist_id = pid → f r.position = r.position
  | [], _, r, hr, _ => by cases hr
  | x :: t, h, r, hr, hp => by
    unfold onPlaylist at h
    rw [List.map_cons, List.cons.injEq] at h
    rcases List.mem_cons.mp hr with rfl | hr
    · have h1 := h.1
      rw [if_pos hp] at h1
      exact congrArg PlaylistTrack.position h1
    · exact @onPlaylist_eq_self pid f t h.2 r hr hp

theorem Dense.exists_row {db : Table} {pid : Int} {N : Nat} (h : Dense db pid N) {p : Int}
    (h1 : 1 ≤ p) (h2 : p ≤ N) : ∃ r ∈ db, r.playlist_id = pid ∧ r.position = p := by
  have hmem : p ∈ positionsOf db pid := h.symm.subset ((mem_positionRange N p).mpr ⟨h1, h2⟩)
  unfold positionsOf at hmem
  obtain ⟨r, hr, rfl⟩ := List.mem_map.mp hmem
  rw [List.mem_filter] at hr
  exact ⟨r, hr.1, by simpa using hr.2, rfl⟩

theorem length_moveTrackStatements (pid o n : Int) :
    (moveTrackStatements pid o n).length =
      if n < o then 4 else if n > o then 3 else 0 := by
  unfold moveTrackStatements
  split_ifs <;> rfl

/-- C8, as stated, fails: on three entries at positions `1, 2, 3`, a move from
position 1 to position 3 whose second statement (the decrement) fails leaves the
positions `3, 2, 3` in the table; nothing is rolled back. -/
theorem moveTrack_failed_statement_not_rolled_back :
    positionsOf (sampleModel 3 false).PlaylistTracks 7 = [1, 2, 3] ∧
    positionData (sampleModel 3 false) ⟨0⟩ = 1 ∧
    positionData (sampleModel 3 false) ⟨2⟩ = 3 ∧
    positionsOf (moveTrackWith (fun k => decide (k ≠ 1)) (sampleModel 3 false)
      ⟨0⟩ ⟨2⟩).PlaylistTracks 7 = [3, 2, 3] := by
  decide

/-- C8, amended.  When exactly one of the statements of `moveTrack` fails, the
`j`-th one, the transaction is committed all the same: the table stored is the
one that the other statements produce.  On a playlist whose positions are exactly
`1..N`, with two distinct valid positions, that table differs from the table
before the call. -/
theorem moveTrackWith_one_failure (m : PlaylistTableModel) (sourceIndex destIndex : QModelIndex)
    (N : Nat) (oldPosition newPosition : Int) (j : Nat)
    (hdense : Dense m.PlaylistTracks m.m_iPlaylistId N)
    (hold : positionData m sourceIndex = oldPosition)
    (hnew : positionData m destIndex = newPosition)
    (hO : 1 ≤ oldPosition ∧ oldPosition ≤ N) (hN : 1 ≤ newPosition ∧ newPosition ≤ N)
    (hne : oldPosition ≠ newPosition)
    (hj : j < (moveTrackStatements m.m_iPlaylistId oldPosition newPosition).length) :
    (moveTrackWith (fun k => decide (k ≠ j)) m sourceIndex destIndex).PlaylistTracks =
        execAll (fun k => decide (k ≠ j)) 0
          (moveTrackStatements m.m_iPlaylistId oldPosition newPosition) m.PlaylistTracks ∧
      (moveTrackWith (fun k => decide (k ≠ j)) m sourceIndex destIndex).PlaylistTracks ≠
        m.PlaylistTracks := by
  have h0 : ¬ newPosition < 0 := by omega
  have h1 : ¬ newPosition = 0 := by omega
  have htable : (moveTrackWith (fun k => decide (k ≠ j)) m sourceIndex destIndex).PlaylistTracks =
      execAll (fun k => decide (k ≠ j)) 0
        (moveTrackStatements m.m_iPlaylistId oldPosition newPosition) m.PlaylistTracks := by
    unfold moveTrackWith
    simp only [hold, hnew, h0, h1, if_false, select_PlaylistTracks]
  refine ⟨htable, ?_⟩
  rw [htable]
  obtain ⟨ro, hro, hpo, hposo⟩ := hdense.exists_row hO.1 hO.2
  obtain ⟨rn, hrn, hpn, hposn⟩ := hdense.exists_row hN.1 hN.2
  rw [length_moveTrackStatements] at hj
  intro heq
  rcases lt_or_gt_of_ne hne with hgt | hlt
  · have hnlt : ¬ newPosition < oldPosition := by omega
    simp only [hnlt, if_false, gt_iff_lt, hgt, if_true] at hj
    rw [execAll_moveTrackStatements_gt _ _ _ _ hgt] at heq
    interval_cases j
    · simp only [exec, ne_eq, decide_not, decide_True, decide_False, Bool.not_true,
        Bool.not_false, Bool.false_eq_true, if_false, if_true, onPlaylist_onPlaylist,
        Nat.reduceEqDiff] at heq
      have := onPlaylist_eq_self heq rn hrn hpn
      rw [hposn] at this
      split_ifs at this <;> omega
    · simp only [exec, ne_eq, decide_not, decide_True, decide_False, Bool.not_true,
        Bool.not_false, Bool.false_eq_true, if_false, if_true, onPlaylist_onPlaylist,
        Nat.reduceEqDiff] at heq
      have := onPlaylist_eq_self heq ro hro hpo
      rw [hposo] at this
      split_ifs at this <;> omega
    · simp only [exec, ne_eq, decide_not, decide_True, decide_False, Bool.not_true,
        Bool.not_false, Bool.false_eq_true, if_false, if_true, onPlaylist_onPlaylist,
        Nat.reduceEqDiff] at heq
      have := onPlaylist_eq_self heq ro hro hpo
      rw [hposo] at this
      split_ifs at this <;> omega
  · simp only [hlt, if_true] at hj
    rw [execAll_moveTrackStatements_lt _ _ _ _ hlt] at heq
    interval_cases j
    · simp only [exec, ne_eq, decide_not, decide_True, decide_False, Bool.not_true,
        Bool.not_false, Bool.false_eq_true, if_false, if_true, onPlaylist_onPlaylist,
        Nat.reduceEqDiff] at heq
      have := onPlaylist_eq_self heq rn hrn hpn
      rw [hposn] at this
      split_ifs at this <;> omega
    · simp only [exec, ne_eq, decide_not, decide_True, decide_False, Bool.not_true,
        Bool.not_false, Bool.false_eq_true, if_false, if_true, onPlaylist_onPlaylist,
        Nat.reduceEqDiff] at heq
      have := onPlaylist_eq_self heq ro hro hpo
      rw [hposo] at this
      split_ifs at this <;> omega
    · simp only [exec, ne_eq, decide_not, decide_True, decide_False, Bool.not_true,
        Bool.not_false, Bool.false_eq_true, if_false, if_true, onPlaylist_onPlaylist,
        Nat.reduceEqDiff] at heq
      have := onPlaylist_eq_self heq ro hro hpo
      rw [hposo] at this
      split_ifs at this <;> omega
    · simp only [exec, ne_eq, decide_not, decide_True, decide_False, Bool.not_true,
        Bool.not_false, Bool.false_eq_true, if_false, if_true, onPlaylist_onPlaylist,
        Nat.reduceEqDiff] at heq
      have := onPlaylist_eq_self heq ro hro hpo
      rw [hposo] at this
      split_ifs at this <;> omega

/-- C8, amended, at an example: three entries, a move from position 3 to
position 1 whose third statement fails. -/
theorem moveTrackWith_one_failure_witness :
    Dense (sampleModel 3 false).PlaylistTracks (sampleModel 3 false).m_iPlaylistId 3 ∧
    positionData (sampleModel 3 false) ⟨2⟩ = 3 ∧
    positionData (sampleModel 3 false) ⟨0⟩ = 1 ∧
    2 < (moveTrackStatements (sampleModel 3 false).m_iPlaylistId 3 1).length ∧
    (moveTrackWith (fun k => decide (k ≠ 2)) (sampleModel 3 false) ⟨2⟩ ⟨0⟩).PlaylistTracks ≠
      (sampleModel 3 false).PlaylistTracks :=
  ⟨by decide, by decide, by decide, by decide,
    (moveTrackWith_one_failure (sampleModel 3 false) ⟨2⟩ ⟨0⟩ 3 3 1 2 (by decide) (by decide)
      (by decide) (by decide) (by decide) (by decide) (by decide)).2⟩

/-! ## Move: destinations below 1 -/

/-- C11. With a destination position below `0`, `moveTrack` returns the model as
it was, whatever the source position: the table is unchanged and no statement is
issued, so the result is the same whether statements would succeed or fail. -/
theorem moveTrack_negative_destination (ok : Nat → Bool) (m : PlaylistTableModel)
    (sourceIndex destIndex : QModelIndex) (hneg : positionData m destIndex < 0) :
    moveTrack m sourceIndex destIndex = m ∧ moveTrackWith ok m sourceIndex destIndex = m := by
  unfold moveTrack moveTrackWith
  simp only [hneg, if_true, and_self]

/-- C11, at an example: a view whose first row shows the position `-1`, left
behind by a move whose last statement failed; that row is taken as destination. -/
theorem moveTrack_negative_destination_witness :
    positionData (moveTrackWith (fun k => decide (k ≠ 2)) (sampleModel 3 false) ⟨0⟩ ⟨2⟩) ⟨0⟩ < 0 ∧
    moveTrack (moveTrackWith (fun k => decide (k ≠ 2)) (sampleModel 3 false) ⟨0⟩ ⟨2⟩) ⟨1⟩ ⟨0⟩ =
      moveTrackWith (fun k => decide (k ≠ 2)) (sampleModel 3 false) ⟨0⟩ ⟨2⟩ :=
  ⟨by decide,
    (moveTrack_negative_destination allSucceed
      (moveTrackWith (fun k => decide (k ≠ 2)) (sampleModel 3 false) ⟨0⟩ ⟨2⟩) ⟨1⟩ ⟨0⟩
      (by decide)).1⟩

/-- C12. On a playlist whose positions are exactly `1..N`, shown in a view of
`N` rows, with a valid `oldPosition`, a move to the destination position `0`
leaves the same model as a move to the destination position `N`, and in the
table it leaves the entry formerly at `oldPosition` is at `N`, the entries
formerly above `oldPosition` are one lower, the others are as they were. -/
theorem moveTrack_zero_is_end (m : PlaylistTableModel)
    (sourceIndex destZero destEnd : QModelIndex) (N : Nat) (oldPosition : Int)
    (hdense : Dense m.PlaylistTracks m.m_iPlaylistId N)
    (hrows : rowCount m = N)
    (hold : positionData m sourceIndex = oldPosition)
    (hzero : positionData m destZero = 0)
    (hend : positionData m destEnd = N)
    (hO : 1 ≤ oldPosition ∧ oldPosition ≤ N) :
    moveTrack m sourceIndex destZero = moveTrack m sourceIndex destEnd ∧
      (moveTrack m sourceIndex destZero).PlaylistTracks =
        m.PlaylistTracks.map (fun r =>
          if r.playlist_id = m.m_iPlaylistId then
            { r with position :=
                if r.position = oldPosition then (N : Int)
                else if oldPosition < r.position then r.position - 1
                else r.position }
          else r) := by
  have hN0 : ¬ ((N : Int) < 0) := by omega
  have hN1 : ¬ ((N : Int) = 0) := by omega
  have hN : (1 : Int) ≤ (N : Int) := by omega
  have e0 : moveTrack m sourceIndex destZero =
      select { m with
        PlaylistTracks := execAll allSucceed 0
          (moveTrackStatements m.m_iPlaylistId oldPosition N) m.PlaylistTracks } := by
    unfold moveTrack moveTrackWith
    simp only [hzero, hold, hrows, lt_self_iff_false, if_false, if_true]
  have e1 : moveTrack m sourceIndex destEnd =
      select { m with
        PlaylistTracks := execAll allSucceed 0
          (moveTrackStatements m.m_iPlaylistId oldPosition N) m.PlaylistTracks } := by
    unfold moveTrack moveTrackWith
    simp only [hend, hold, hN0, hN1, if_false]
  refine ⟨e0.trans e1.symm, ?_⟩
  rw [e0, select_PlaylistTracks, execAll_moveTrackStatements_dense _ N _ _ _ hdense hO hN]
  have key : onPlaylist m.m_iPlaylistId (movedPosition oldPosition N) m.PlaylistTracks =
      onPlaylist m.m_iPlaylistId (fun p =>
        if p = oldPosition then (N : Int)
        else if oldPosition < p then p - 1
        else p) m.PlaylistTracks := by
    apply onPlaylist_congr
    intro r hr hp
    have hb := hdense.bounds hr hp
    unfold movedPosition
    split_ifs <;> omega
  exact key

/-- C12, at an example: five entries, the entry at position 2 is moved with the
destination `0` (an invalid index) and with the destination 5 (the last row). -/
theorem moveTrack_zero_is_end_witness :
    Dense (sampleModel 5 false).PlaylistTracks (sampleModel 5 false).m_iPlaylistId 5 ∧
    rowCount (sampleModel 5 false) = (5 : Nat) ∧
    positionData (sampleModel 5 false) ⟨1⟩ = 2 ∧
    positionData (sampleModel 5 false) ⟨-1⟩ = 0 ∧
    positionData (sampleModel 5 false) ⟨4⟩ = (5 : Nat) ∧
    moveTrack (sampleModel 5 false) ⟨1⟩ ⟨-1⟩ = moveTrack (sampleModel 5 false) ⟨1⟩ ⟨4⟩ ∧
    (moveTrack (sampleModel 5 false) ⟨1⟩ ⟨-1⟩).PlaylistTracks =
      [⟨7, 101, 1⟩, ⟨7, 102, 5⟩, ⟨7, 103, 2⟩, ⟨7, 104, 3⟩, ⟨7, 105, 4⟩] :=
  have h := moveTrack_zero_is_end (sampleModel 5 false) ⟨1⟩ ⟨-1⟩ ⟨4⟩ 5 2
    (by decide) (by decide) (by decide) (by decide) (by decide) (by decide)
  ⟨by decide, by decide, by decide, by decide, by decide, h.1, h.2.trans (by decide)⟩

/-! ## Selection of a playlist: idempotence -/

/-- C15. A call of `setPlaylist` for the playlist that is already bound changes
nothing and rebuilds nothing: the model and the number of rebuilds are as before.
From a state bound to another playlist, the first call binds the model to the
playlist and rebuilds the projection, once: the rows are the entries of that
playlist whose track is in the library (and is not deleted, unless all tracks are
shown), in ascending position order, and the number of rebuilds has advanced by
one.  A second call in a row for the same playlist leaves that state, so that
the two calls rebuild the projection exactly once and leave the state that one
call leaves. -/
theorem setPlaylist_idempotent (m : PlaylistTableModel) (rebuilds : Nat) (playlistId : Int) :
    (m.m_iPlaylistId = playlistId → setPlaylist (m, rebuilds) playlistId = (m, rebuilds)) ∧
    (m.m_iPlaylistId ≠ playlistId →
      setPlaylist (m, rebuilds) playlistId =
        ({ m with
            m_iPlaylistId := playlistId
            rows := (m.PlaylistTracks.filter (fun r =>
              decide (r.playlist_id = playlistId) &&
                m.library.any (fun t =>
                  decide (t.id = r.track_id) && (m.m_showAll || !t.mixxx_deleted)))).insertionSort
              (fun a b => a.position ≤ b.position) },
          rebuilds + 1) ∧
      setPlaylist (setPlaylist (m, rebuilds) playlistId) playlistId =
        setPlaylist (m, rebuilds) playlistId ∧
      (setPlaylist (setPlaylist (m, rebuilds) playlistId) playlistId).2 = rebuilds + 1) := by
  constructor
  · intro h
    unfold setPlaylist
    rw [if_pos h]
  · intro h
    have h1 : setPlaylist (m, rebuilds) playlistId =
        (select { m with m_iPlaylistId := playlistId }, rebuilds + 1) := by
      unfold setPlaylist
      rw [if_neg h]
      rfl
    have hbound : (select { m with m_iPlaylistId := playlistId }, rebuilds + 1).1.m_iPlaylistId =
        playlistId := rfl
    have h2 : setPlaylist (select { m with m_iPlaylistId := playlistId }, rebuilds + 1)
        playlistId = (select { m with m_iPlaylistId := playlistId }, rebuilds + 1) := by
      unfold setPlaylist
      rw [if_pos hbound]
    rw [h1, h2]
    exact ⟨rfl, rfl, rfl⟩

/-- C15, at an example: a model bound to playlist 7, five rebuilds made so far,
is asked for playlist 7, and is asked twice for playlist 8, whose two entries are
stored out of order. -/
theorem setPlaylist_idempotent_witness :
    twoPlaylistModel.m_iPlaylistId = 7 ∧
    twoPlaylistModel.m_iPlaylistId ≠ 8 ∧
    twoPlaylistModel.rows = [⟨7, 101, 1⟩, ⟨7, 102, 2⟩, ⟨7, 103, 3⟩] ∧
    setPlaylist (twoPlaylistModel, 5) 7 = (twoPlaylistModel, 5) ∧
    (setPlaylist (twoPlaylistModel, 5) 8).1.rows = [⟨8, 101, 1⟩, ⟨8, 102, 2⟩] ∧
    (setPlaylist (twoPlaylistModel, 5) 8).2 = 6 ∧
    setPlaylist (setPlaylist (twoPlaylistModel, 5) 8) 8 = setPlaylist (twoPlaylistModel, 5) 8 ∧
    (setPlaylist (setPlaylist (twoPlaylistModel, 5) 8) 8).2 = 6 :=
  have h := (setPlaylist_idempotent twoPlaylistModel 5 8).2 (by decide)
  ⟨by decide, by decide, by decide,
    (setPlaylist_idempotent twoPlaylistModel 5 7).1 (by decide),
    by rw [h.1]; decide, by rw [h.1], h.2.1, h.2.2⟩

/-! ## Insertion: the position handed to the insert -/

/-- C16, as stated, fails: a position above `rowCount() + 1` is handed on as it
is.  With three entries at the positions 1, 2, 5 shown in three rows, the index of
the last row makes `addTrack` and `addTracks` insert at position 5, outside
`[1, 4]`; with five entries of which the view shows the two rows of the positions
4 and 5, the index of the last row makes them insert at position 5, outside
`[1, 3]`. -/
theorem insertPosition_above_end :
    rowCount gapModel = 3 ∧ gapModel.PlaylistTracks.length = 3 ∧
    positionData gapModel ⟨2⟩ = 5 ∧ insertPosition gapModel ⟨2⟩ = 5 ∧
    (addTrack (constantDao 104) gapModel ⟨2⟩ "").2.PlaylistTracks =
      insertTrackIntoPlaylist gapModel.PlaylistTracks 104 7 5 ∧
    ¬ (insertPosition gapModel ⟨2⟩ ≤ rowCount gapModel + 1) ∧
    rowCount filteredModel = 2 ∧
    positionData filteredModel ⟨1⟩ = 5 ∧ insertPosition filteredModel ⟨1⟩ = 5 ∧
    (addTracks (constantDao 106) filteredModel ⟨1⟩ [""]).2.PlaylistTracks =
      (insertTracksIntoPlaylist filteredModel.PlaylistTracks [106] 7 5).2 ∧
    ¬ (insertPosition filteredModel ⟨1⟩ ≤ rowCount filteredModel + 1) := by
  decide

/-- C16, amended.  The position that `addTrack` and `addTracks` hand to the
insert is `rowCount() + 1` whenever the target position is `0` or less, and the
target position itself otherwise; it is always at least 1, and it lies in
`[1, rowCount() + 1]` exactly when the target position does not exceed
`rowCount() + 1`. -/
theorem insertPosition_handed (trackDao : TrackDAO) (m : PlaylistTableModel)
    (index : QModelIndex) (location : String) (locations : List String)
    (targetPosition : Int) (htarget : positionData m index = targetPosition) :
    (addTrack trackDao m index location).2.PlaylistTracks =
        (if (trackDao.addTrack m.library location).1 < 0 then m.PlaylistTracks
         else insertTrackIntoPlaylist m.PlaylistTracks (trackDao.addTrack m.library location).1
           m.m_iPlaylistId (insertPosition m index)) ∧
      (addTracks trackDao m index locations).2.PlaylistTracks =
        (insertTracksIntoPlaylist m.PlaylistTracks (trackDao.addTracks m.library locations).1
          m.m_iPlaylistId (insertPosition m index)).2 ∧
      (targetPosition ≤ 0 → insertPosition m index = rowCount m + 1) ∧
      (0 < targetPosition → insertPosition m index = targetPosition) ∧
      1 ≤ insertPosition m index ∧
      (insertPosition m index ≤ rowCount m + 1 ↔ targetPosition ≤ rowCount m + 1) := by
  have hrc : 0 ≤ rowCount m := by
    unfold rowCount
    omega
  have hins : insertPosition m index =
      if targetPosition ≤ 0 then rowCount m + 1 else targetPosition := by
    unfold insertPosition
    simp only [htarget]
  refine ⟨?_, ?_, ?_, ?_, ?_, ?_⟩
  · unfold addTrack
    simp only
    split_ifs <;> rfl
  · unfold addTracks
    simp only
    split_ifs <;> rfl
  · intro h
    rw [hins, if_pos h]
  · intro h
    rw [hins, if_neg (by omega)]
  · rw [hins]
    split_ifs <;> omega
  · rw [hins]
    split_ifs <;> omega

/-- C16, amended, at an example: five entries, a drop on an invalid index
(target position `0`) inserts at position 6. -/
theorem insertPosition_handed_witness :
    positionData (sampleModel 5 false) ⟨-1⟩ = 0 ∧
    insertPosition (sampleModel 5 false) ⟨-1⟩ = rowCount (sampleModel 5 false) + 1 ∧
    insertPosition (sampleModel 5 false) ⟨-1⟩ = 6 ∧
    (addTrack (constantDao 104) (sampleModel 5 false) ⟨-1⟩ "").2.PlaylistTracks =
      [⟨7, 101, 1⟩, ⟨7, 102, 2⟩, ⟨7, 103, 3⟩, ⟨7, 104, 4⟩, ⟨7, 105, 5⟩, ⟨7, 104, 6⟩] :=
  have h := insertPosition_handed (constantDao 104) (sampleModel 5 false) ⟨-1⟩ "" [] 0
    (by decide)
  ⟨by decide, h.2.2.1 (by decide), (h.2.2.1 (by decide)).trans (by decide),
    h.1.trans (by decide)⟩

/-! ## Insertion: unusable track identities -/

theorem length_insertTrackIntoPlaylist (db : Table) (trackId playlistId position : Int) :
    (insertTrackIntoPlaylist db trackId playlistId position).length = db.length + 1 := by
  unfold insertTrackIntoPlaylist sqlUpdate
  simp

theorem mem_insertTrackIntoPlaylist (db : Table) (trackId playlistId position : Int) :
    (⟨playlistId, trackId, position⟩ : PlaylistTrack) ∈
      insertTrackIntoPlaylist db trackId playlistId position := by
  unfold insertTrackIntoPlaylist
  simp

/-- C17. When the resolver answers a track id below `0`, `addTrack` returns
false and leaves the table as it was; when `appendTrack` is given a track id
below `0`, it returns false and leaves the model as it was.  For every track id
of `0` or more both return true and the table they leave is the one the insert of
`PlaylistDAO` produces: it holds one row more, the new entry of the bound
playlist with that track. -/
theorem addTrack_appendTrack_result (trackDao : TrackDAO) (m : PlaylistTableModel)
    (index : QModelIndex) (location : String) (trackId : Int) :
    ((trackDao.addTrack m.library location).1 < 0 →
      (addTrack trackDao m index location).1 = false ∧
      (addTrack trackDao m index location).2.PlaylistTracks = m.PlaylistTracks) ∧
    (0 ≤ (trackDao.addTrack m.library location).1 →
      (addTrack trackDao m index location).1 = true ∧
      (addTrack trackDao m index location).2.PlaylistTracks =
        insertTrackIntoPlaylist m.PlaylistTracks (trackDao.addTrack m.library location).1
          m.m_iPlaylistId (insertPosition m index) ∧
      (addTrack trackDao m index location).2.PlaylistTracks.length =
        m.PlaylistTracks.length + 1 ∧
      (⟨m.m_iPlaylistId, (trackDao.addTrack m.library location).1, insertPosition m index⟩ :
        PlaylistTrack) ∈ (addTrack trackDao m index location).2.PlaylistTracks) ∧
    (trackId < 0 → appendTrack m trackId = (false, m)) ∧
    (0 ≤ trackId →
      (appendTrack m trackId).1 = true ∧
      (appendTrack m trackId).2.PlaylistTracks =
        appendTrackToPlaylist m.PlaylistTracks trackId m.m_iPlaylistId ∧
      (appendTrack m trackId).2.PlaylistTracks.length = m.PlaylistTracks.length + 1 ∧
      (⟨m.m_iPlaylistId, trackId,
          ((m.PlaylistTracks.filter
            (fun r => decide (r.playlist_id = m.m_iPlaylistId))).length : Int) + 1⟩ :
        PlaylistTrack) ∈ (appendTrack m trackId).2.PlaylistTracks) := by
  refine ⟨?_, ?_, ?_, ?_⟩
  · intro h
    unfold addTrack
    simp only [h, if_true, and_self]
  · intro h
    have hn : ¬ (trackDao.addTrack m.library location).1 < 0 := by omega
    have htable : (addTrack trackDao m index location).2.PlaylistTracks =
        insertTrackIntoPlaylist m.PlaylistTracks (trackDao.addTrack m.library location).1
          m.m_iPlaylistId (insertPosition m index) := by
      unfold addTrack
      simp only [hn, if_false, select_PlaylistTracks]
    refine ⟨?_, htable, ?_, ?_⟩
    · unfold addTrack
      simp only [hn, if_false]
    · rw [htable]
      exact length_insertTrackIntoPlaylist _ _ _ _
    · rw [htable]
      exact mem_insertTrackIntoPlaylist _ _ _ _
  · intro h
    unfold appendTrack
    rw [if_pos h]
  · intro h
    have hn : ¬ trackId < 0 := by omega
    have htable : (appendTrack m trackId).2.PlaylistTracks =
        appendTrackToPlaylist m.PlaylistTracks trackId m.m_iPlaylistId := by
      unfold appendTrack
      simp only [hn, if_false, select_PlaylistTracks]
    refine ⟨?_, htable, ?_, ?_⟩
    · unfold appendTrack
      simp only [hn, if_false]
    · rw [htable]
      exact length_insertTrackIntoPlaylist _ _ _ _
    · rw [htable]
      exact mem_insertTrackIntoPlaylist _ _ _ _

/-- C17, at an example: three entries; a resolver that answers `-1`, a resolver
that answers the track 104, and `appendTrack` with the ids `-1` and `104`. -/
theorem addTrack_appendTrack_result_witness :
    ((constantDao (-1)).addTrack (sampleModel 3 false).library "").1 < 0 ∧
    (addTrack (constantDao (-1)) (sampleModel 3 false) ⟨1⟩ "").1 = false ∧
    (addTrack (constantDao (-1)) (sampleModel 3 false) ⟨1⟩ "").2.PlaylistTracks =
      (sampleModel 3 false).PlaylistTracks ∧
    0 ≤ ((constantDao 104).addTrack (sampleModel 3 false).library "").1 ∧
    (addTrack (constantDao 104) (sampleModel 3 false) ⟨1⟩ "").1 = true ∧
    (addTrack (constantDao 104) (sampleModel 3 false) ⟨1⟩ "").2.PlaylistTracks =
      [⟨7, 101, 1⟩, ⟨7, 102, 3⟩, ⟨7, 103, 4⟩, ⟨7, 104, 2⟩] ∧
    appendTrack (sampleModel 3 false) (-1) = (false, sampleModel 3 false) ∧
    (appendTrack (sampleModel 3 false) 104).1 = true ∧
    (appendTrack (sampleModel 3 false) 104).2.PlaylistTracks =
      [⟨7, 101, 1⟩, ⟨7, 102, 2⟩, ⟨7, 103, 3⟩, ⟨7, 104, 4⟩] :=
  have hfail := addTrack_appendTrack_result (constantDao (-1)) (sampleModel 3 false) ⟨1⟩ "" (-1)
  have hgood := addTrack_appendTrack_result (constantDao 104) (sampleModel 3 false) ⟨1⟩ "" 104
  ⟨by decide, (hfail.1 (by decide)).1, (hfail.1 (by decide)).2,
    by decide, (hgood.2.1 (by decide)).1, (hgood.2.1 (by decide)).2.1.trans (by decide),
    hfail.2.2.1 (by decide), (hgood.2.2.2 (by decide)).1,
    (hgood.2.2.2 (by decide)).2.1.trans (by decide)⟩

/-! ## Move: no transient duplicates -/

theorem moveTrackStatements_of_lt (pid o n : Int) (h : n < o) :
    moveTrackStatements pid o n =
      [onPlaylist pid (fun p => if p = o then -1 else p),
        onPlaylist pid (fun p => if p > o then p - 1 else p),
        onPlaylist pid (fun p => if p ≥ n then p + 1 else p),
        onPlaylist pid (fun p => if p = -1 then n else p)] := by
  unfold moveTrackStatements
  simp only [h, if_true]
  have e0 : sqlUpdate (fun r => decide (r.position = o ∧ r.playlist_id = pid)) (fun _ => -1)
      = onPlaylist pid (fun p => if p = o then -1 else p) :=
    funext (sqlUpdate_eq_onPlaylist pid _ (fun p => p = o) _ (by intro r; simp))
  have e1 : sqlUpdate (fun r => decide (r.position > o ∧ r.playlist_id = pid)) (fun p => p - 1)
      = onPlaylist pid (fun p => if p > o then p - 1 else p) :=
    funext (sqlUpdate_eq_onPlaylist pid _ (fun p => p > o) _ (by intro r; simp))
  have e2 : sqlUpdate (fun r => decide (r.position ≥ n ∧ r.playlist_id = pid)) (fun p => p + 1)
      = onPlaylist pid (fun p => if p ≥ n then p + 1 else p) :=
    funext (sqlUpdate_eq_onPlaylist pid _ (fun p => p ≥ n) _ (by intro r; simp))
  have e3 : sqlUpdate (fun r => decide (r.position = -1 ∧ r.playlist_id = pid)) (fun _ => n)
      = onPlaylist pid (fun p => if p = -1 then n else p) :=
    funext (sqlUpdate_eq_onPlaylist pid _ (fun p => p = -1) _ (by intro r; simp))
  rw [e0, e1, e2, e3]

theorem moveTrackStatements_of_gt (pid o n : Int) (h : o < n) :
    moveTrackStatements pid o n =
      [onPlaylist pid (fun p => if p = o then -1 else p),
        onPlaylist pid (fun p => if p > o ∧ p ≤ n then p - 1 else p),
        onPlaylist pid (fun p => if p = -1 then n else p)] := by
  unfold moveTrackStatements
  have h2 : ¬ n < o := by omega
  simp only [h2, if_false, gt_iff_lt, h, if_true]
  have e0 : sqlUpdate (fun r => decide (r.position = o ∧ r.playlist_id = pid)) (fun _ => -1)
      = onPlaylist pid (fun p => if p = o then -1 else p) :=
    funext (sqlUpdate_eq_onPlaylist pid _ (fun p => p = o) _ (by intro r; simp))
  have e1 : sqlUpdate (fun r => decide (o < r.position ∧ r.position ≤ n ∧ r.playlist_id = pid))
      (fun p => p - 1)
      = onPlaylist pid (fun p => if p > o ∧ p ≤ n then p - 1 else p) :=
    funext (sqlUpdate_eq_onPlaylist pid _ (fun p => p > o ∧ p ≤ n) _
      (by intro r; simp [and_assoc]))
  have e3 : sqlUpdate (fun r => decide (r.position = -1 ∧ r.playlist_id = pid)) (fun _ => n)
      = onPlaylist pid (fun p => if p = -1 then n else p) :=
    funext (sqlUpdate_eq_onPlaylist pid _ (fun p => p = -1) _ (by intro r; simp))
  rw [e0, e1, e3]

/-- Rewriting the positions of a dense playlist by a map that is injective on
`1..N` leaves no two entries at the same position. -/
theorem Dense.nodup_onPlaylist {db : Table} {pid : Int} {N : Nat} (h : Dense db pid N)
    (f : Int → Int)
    (hinj : ∀ p q : Int, 1 ≤ p → p ≤ N → 1 ≤ q → q ≤ N → f p = f q → p = q) :
    (positionsOf (Mixxx.onPlaylist pid f db) pid).Nodup := by
  rw [positionsOf_onPlaylist]
  refine (h.map f).nodup_iff.mpr (List.Nodup.map_on ?_ (nodup_positionRange N))
  intro x hx y hy hxy
  have hbx := (mem_positionRange N x).mp hx
  have hby := (mem_positionRange N y).mp hy
  exact hinj x y hbx.1 hbx.2 hby.1 hby.2 hxy

theorem Dense.nodup {db : Table} {pid : Int} {N : Nat} (h : Dense db pid N) :
    (positionsOf db pid).Nodup :=
  h.nodup_iff.mpr (nodup_positionRange N)

theorem Dense.nodup_onPlaylist_congr {db : Table} {pid : Int} {N : Nat} (h : Dense db pid N)
    (f g : Int → Int) (heq : ∀ p : Int, 1 ≤ p → p ≤ N → f p = g p)
    (hinj : ∀ p q : Int, 1 ≤ p → p ≤ N → 1 ≤ q → q ≤ N → g p = g q → p = q) :
    (positionsOf (Mixxx.onPlaylist pid f db) pid).Nodup := by
  have e : Mixxx.onPlaylist pid f db = Mixxx.onPlaylist pid g db := by
    apply onPlaylist_congr
    intro r hr hp
    have hb := h.bounds hr hp
    exact heq r.position hb.1 hb.2
  rw [e]
  exact h.nodup_onPlaylist g hinj

/-- After any number of the statements of a move between two positions of a
dense playlist, no two entries of the playlist share a position. -/
theorem nodup_after_moveTrackStatements (pid : Int) (N : Nat) (o n : Int) (db : Table)
    (hdense : Dense db pid N) (hO : 1 ≤ o ∧ o ≤ N) (hN : 1 ≤ n ∧ n ≤ N) (k : Nat) :
    (positionsOf (execAll allSucceed 0 ((moveTrackStatements pid o n).take k) db) pid).Nodup := by
  have hfull : (positionsOf (execAll allSucceed 0 (moveTrackStatements pid o n) db) pid).Nodup := by
    rw [execAll_moveTrackStatements_dense pid N o n db hdense hO hN.1]
    apply hdense.nodup_onPlaylist
    intro p q hp1 hp2 hq1 hq2
    unfold movedPosition
    split_ifs <;> omega
  rcases lt_trichotomy n o with hlt | heq | hgt
  · rcases k with _ | _ | _ | _ | k
    · exact hdense.nodup
    · rw [moveTrackStatements_of_lt _ _ _ hlt]
      simp only [List.take, execAll, exec, allSucceed, if_true]
      apply hdense.nodup_onPlaylist
      intro p q hp1 hp2 hq1 hq2
      split_ifs <;> omega
    · rw [moveTrackStatements_of_lt _ _ _ hlt]
      simp only [List.take, execAll, exec, allSucceed, if_true, onPlaylist_onPlaylist]
      apply hdense.nodup_onPlaylist_congr _
        (fun p => if p = o then -1 else if p > o then p - 1 else p)
      · intro p hp1 hp2
        split_ifs <;> omega
      · intro p q hp1 hp2 hq1 hq2
        split_ifs <;> omega
    · rw [moveTrackStatements_of_lt _ _ _ hlt]
      simp only [List.take, execAll, exec, allSucceed, if_true, onPlaylist_onPlaylist]
      apply hdense.nodup_onPlaylist_congr _
        (fun p => if p = o then -1 else if n ≤ p ∧ p < o then p + 1 else p)
      · intro p hp1 hp2
        split_ifs <;> omega
      · intro p q hp1 hp2 hq1 hq2
        split_ifs <;> omega
    · have hlen : (moveTrackStatements pid o n).length ≤ k + 1 + 1 + 1 + 1 := by
        rw [length_moveTrackStatements]
        split_ifs <;> omega
      rw [List.take_of_length_le hlen]
      exact hfull
  · subst heq
    have hnil : moveTrackStatements pid n n = [] := by
      unfold moveTrackStatements
      simp
    rw [hnil, List.take_nil]
    exact hdense.nodup
  · rcases k with _ | _ | _ | k
    · exact hdense.nodup
    · rw [moveTrackStatements_of_gt _ _ _ hgt]
      simp only [List.take, execAll, exec, allSucceed, if_true]
      apply hdense.nodup_onPlaylist
      intro p q hp1 hp2 hq1 hq2
      split_ifs <;> omega
    · rw [moveTrackStatements_of_gt _ _ _ hgt]
      simp only [List.take, execAll, exec, allSucceed, if_true, onPlaylist_onPlaylist]
      apply hdense.nodup_onPlaylist_congr _
        (fun p => if p = o then -1 else if o < p ∧ p ≤ n then p - 1 else p)
      · intro p hp1 hp2
        split_ifs <;> omega
      · intro p q hp1 hp2 hq1 hq2
        split_ifs <;> omega
    · have hlen : (moveTrackStatements pid o n).length ≤ k + 1 + 1 + 1 := by
        rw [length_moveTrackStatements]
        split_ifs <;> omega
      rw [List.take_of_length_le hlen]
      exact hfull

/-- C18. On a playlist whose positions are exactly `1..N`, with both positions
in `[1, N]`, the table that `moveTrack` stores is the one its statements
produce, and after each of these statements (after the first `k` of them, for
every `k`) no two entries of the playlist share a position and at most one entry
holds the sentinel position `-1`, which is not one of `1..N`. -/
theorem moveTrack_no_transient_duplicates (m : PlaylistTableModel)
    (sourceIndex destIndex : QModelIndex) (N : Nat) (oldPosition newPosition : Int) (k : Nat)
    (hdense : Dense m.PlaylistTracks m.m_iPlaylistId N)
    (hold : positionData m sourceIndex = oldPosition)
    (hnew : positionData m destIndex = newPosition)
    (hO : 1 ≤ oldPosition ∧ oldPosition ≤ N) (hN : 1 ≤ newPosition ∧ newPosition ≤ N) :
    (moveTrack m sourceIndex destIndex).PlaylistTracks =
        execAll allSucceed 0 (moveTrackStatements m.m_iPlaylistId oldPosition newPosition)
          m.PlaylistTracks ∧
      (positionsOf (execAll allSucceed 0
        ((moveTrackStatements m.m_iPlaylistId oldPosition newPosition).take k)
        m.PlaylistTracks) m.m_iPlaylistId).Nodup ∧
      (positionsOf (execAll allSucceed 0
        ((moveTrackStatements m.m_iPlaylistId oldPosition newPosition).take k)
        m.PlaylistTracks) m.m_iPlaylistId).count (-1) ≤ 1 ∧
      (-1 : Int) ∉ positionRange N := by
  have hnodup := nodup_after_moveTrackStatements m.m_iPlaylistId N oldPosition newPosition
    m.PlaylistTracks hdense hO hN k
  refine ⟨?_, hnodup, List.nodup_iff_count_le_one.mp hnodup (-1), ?_⟩
  · unfold moveTrack moveTrackWith
    have h0 : ¬ newPosition < 0 := by omega
    have h1 : ¬ newPosition = 0 := by omega
    simp only [hold, hnew, h0, h1, if_false, select_PlaylistTracks]
  · rw [mem_positionRange]
    omega

/-- C18, at an example: five entries, a move from position 4 to position 2,
after two of its four statements: the positions are `1, 3, 4, -1, 5`. -/
theorem moveTrack_no_transient_duplicates_witness :
    Dense (sampleModel 5 false).PlaylistTracks (sampleModel 5 false).m_iPlaylistId 5 ∧
    positionData (sampleModel 5 false) ⟨3⟩ = 4 ∧
    positionData (sampleModel 5 false) ⟨1⟩ = 2 ∧
    positionsOf (execAll allSucceed 0
      ((moveTrackStatements (sampleModel 5 false).m_iPlaylistId 4 2).take 3)
      (sampleModel 5 false).PlaylistTracks) (sampleModel 5 false).m_iPlaylistId =
        [1, 3, 4, -1, 5] ∧
    (positionsOf (execAll allSucceed 0
      ((moveTrackStatements (sampleModel 5 false).m_iPlaylistId 4 2).take 3)
      (sampleModel 5 false).PlaylistTracks) (sampleModel 5 false).m_iPlaylistId).Nodup :=
  ⟨by decide, by decide, by decide, by decide,
    (moveTrack_no_transient_duplicates (sampleModel 5 false) ⟨3⟩ ⟨1⟩ 5 4 2 3 (by decide)
      (by decide) (by decide) (by decide) (by decide)).2.1⟩

/-! ## Shuffle: the range of the draw -/

/-- The table that `shuffleTracks` leaves, with the draws as integer divisions,
in the range where the arithmetic of the draw is exact. -/
theorem shuffleTracks_table_exact (RAND_MAX : Nat) (qrand : Nat → Nat) (m : PlaylistTableModel)
    (shuffleStartIndex : QModelIndex) (j : Nat) (hs : 0 ≤ shuffleStartIndex.row)
    (hle : shuffleStartIndex.row ≤ rowCount m) (hq : ∀ k, qrand k ≤ RAND_MAX)
    (hR : RAND_MAX + 1 = 2 ^ j)
    (hexact : (rowCount m + 1) * (2 : Int) ^ j < (2 : Int) ^ 53) :
    (shuffleTracks RAND_MAX qrand m shuffleStartIndex).PlaylistTracks =
      (List.range (rowCount m - shuffleStartIndex.row).toNat).foldl
        (fun (db : Table) (k : Nat) => execAll allSucceed 0
          (swapStatements m.m_iPlaylistId (positionData m ⟨rowCount m - 1 - (k : Int)⟩)
            ((qrand k : Int) * (rowCount m - shuffleStartIndex.row) / ((RAND_MAX : Int) + 1) +
              shuffleStartIndex.row + 1)) db)
        m.PlaylistTracks := by
  unfold shuffleTracks
  simp only [select_PlaylistTracks]
  have hstep : shuffleStep RAND_MAX qrand m (rowCount m) shuffleStartIndex.row =
      (fun (db : Table) (k : Nat) => execAll allSucceed 0
        (swapStatements m.m_iPlaylistId (positionData m ⟨rowCount m - 1 - (k : Int)⟩)
          ((qrand k : Int) * (rowCount m - shuffleStartIndex.row) / ((RAND_MAX : Int) + 1) +
            shuffleStartIndex.row + 1)) db) := by
    funext db k
    unfold shuffleStep
    simp only [randomPosition_eq_div RAND_MAX (qrand k) j _ _ hR (hq k) hs hle hexact]
  rw [hstep]

/-- C19, evaluated on the code: the range of the draw does not shrink with the
pass.  With two entries and start row 0, the second pass handles row 0, which
holds position 1, and for `qrand() = RAND_MAX = 32767` it draws the partner
`2 > 1`; the two entries are swapped by that pass. -/
theorem shuffleTracks_draw_above_handled_position :
    rowCount (sampleModel 2 false) = 2 ∧
    positionData (sampleModel 2 false) ⟨2 - 1 - ((1 : Nat) : Int)⟩ = 1 ∧
    randomPosition 32767 32767 2 0 = 2 ∧
    (shuffleTracks 32767 (fun _ => 32767) (sampleModel 2 false) ⟨0⟩).PlaylistTracks =
      [⟨7, 101, 2⟩, ⟨7, 102, 1⟩] := by
  refine ⟨by decide, by decide, ?_, ?_⟩
  · rw [randomPosition_eq_div 32767 32767 15 2 0 (by decide) (by decide) (by decide)
      (by decide) (by decide)]
    decide
  · rw [shuffleTracks_table_exact 32767 (fun _ => 32767) (sampleModel 2 false) ⟨0⟩ 15
      (by decide) (by decide) (fun _ => (by decide : 32767 ≤ 32767)) (by decide) (by decide)]
    decide

set_option maxRecDepth 100000 in
/-- C13, evaluated on the code: every pass draws from the whole suffix, so four
passes over a suffix of four entries have `4 ^ 4 = 256` equally likely sequences
of draws, which cannot be shared evenly among the `24` arrangements.  Of these
sequences 8 leave the entries at the positions `4, 1, 2, 3` and 15 leave them at
the positions `2, 1, 4, 3`. -/
theorem shuffleTracks_not_uniform :
    (∀ c k, qrandOfCode c k ≤ 32767) ∧
    ((List.range 256).filter (fun c => decide (positionsOf
      (shuffleTracks 32767 (qrandOfCode c) (sampleModel 4 false) ⟨0⟩).PlaylistTracks 7 =
        [4, 1, 2, 3]))).length = 8 ∧
    ((List.range 256).filter (fun c => decide (positionsOf
      (shuffleTracks 32767 (qrandOfCode c) (sampleModel 4 false) ⟨0⟩).PlaylistTracks 7 =
        [2, 1, 4, 3]))).length = 15 := by
  have hbound : ∀ c k, qrandOfCode c k ≤ 32767 := by
    intro c k
    unfold qrandOfCode
    have := Nat.mod_lt (c / 4 ^ k) (by decide : 4 > 0)
    omega
  have key : ∀ c, (shuffleTracks 32767 (qrandOfCode c) (sampleModel 4 false) ⟨0⟩).PlaylistTracks =
      (List.range (rowCount (sampleModel 4 false) - (⟨0⟩ : QModelIndex).row).toNat).foldl
        (fun (db : Table) (k : Nat) => execAll allSucceed 0
          (swapStatements (sampleModel 4 false).m_iPlaylistId
            (positionData (sampleModel 4 false) ⟨rowCount (sampleModel 4 false) - 1 - (k : Int)⟩)
            ((qrandOfCode c k : Int) *
              (rowCount (sampleModel 4 false) - (⟨0⟩ : QModelIndex).row) /
                (((32767 : Nat) : Int) + 1) + (⟨0⟩ : QModelIndex).row + 1)) db)
        (sampleModel 4 false).PlaylistTracks :=
    fun c => shuffleTracks_table_exact 32767 (qrandOfCode c) (sampleModel 4 false) ⟨0⟩ 15
      (by decide) (by decide) (hbound c) (by decide) (by decide)
  refine ⟨hbound, ?_, ?_⟩
  · simp only [key]
    decide
  · simp only [key]
    decide

/-! ## Move and shuffle: frame -/

theorem onlyPositionsChanged_onPlaylist (pid : Int) (f : Int → Int) (db : Table) :
    OnlyPositionsChanged pid db (onPlaylist pid f db) := by
  unfold OnlyPositionsChanged onPlaylist
  refine ⟨List.length_map _ _, ?_⟩
  intro i r hi
  rw [List.getElem?_map, hi]
  by_cases hp : r.playlist_id = pid
  · exact ⟨{ r with position := f r.position },
      by simp only [Option.map_some', hp, if_true], rfl, rfl, fun h => absurd hp h⟩
  · exact ⟨r, by simp only [Option.map_some', hp, if_false], rfl, rfl, fun _ => rfl⟩

theorem onlyPositionsChanged_refl (pid : Int) (db : Table) : OnlyPositionsChanged pid db db := by
  have h := onlyPositionsChanged_onPlaylist pid (fun p => p) db
  rwa [onPlaylist_id] at h

/-- With every statement succeeding, the statements of a move rewrite positions
of the one playlist, whatever the two positions are. -/
theorem execAll_moveTrackStatements_onPlaylist (pid o n : Int) (db : Table) :
    ∃ f : Int → Int,
      execAll allSucceed 0 (moveTrackStatements pid o n) db = onPlaylist pid f db := by
  rcases lt_trichotomy n o with hlt | heq | hgt
  · rw [execAll_moveTrackStatements_lt _ _ _ _ hlt]
    simp only [allSucceed, exec, if_true, onPlaylist_onPlaylist]
    exact ⟨_, rfl⟩
  · subst heq
    rw [execAll_moveTrackStatements_eq]
    exact ⟨fun p => p, (onPlaylist_id pid db).symm⟩
  · rw [execAll_moveTrackStatements_gt _ _ _ _ hgt]
    simp only [allSucceed, exec, if_true, onPlaylist_onPlaylist]
    exact ⟨_, rfl⟩

/-- The passes of `shuffleTracks` rewrite positions of the one playlist, whatever
the view, the start row and the draws are. -/
theorem foldl_shuffleStep_onPlaylist (RAND_MAX : Nat) (qrand : Nat → Nat)
    (m : PlaylistTableModel) (n s : Int) :
    ∀ (ks : List Nat) (db : Table),
      ∃ f : Int → Int,
        ks.foldl (shuffleStep RAND_MAX qrand m n s) db = onPlaylist m.m_iPlaylistId f db
  | [], db => ⟨fun p => p, (onPlaylist_id _ db).symm⟩
  | k :: ks, db => by
    obtain ⟨f, hf⟩ := foldl_shuffleStep_onPlaylist RAND_MAX qrand m n s ks
      (shuffleStep RAND_MAX qrand m n s db k)
    rw [List.foldl_cons, hf]
    unfold shuffleStep
    simp only
    rw [execAll_swapStatements, onPlaylist_onPlaylist]
    exact ⟨_, rfl⟩

/-- C20. Whatever the table holds and whatever the arguments are, `moveTrack`
and `shuffleTracks` change at most the position field of entries of the bound
playlist: the table keeps its rows, each with its playlist and its track, and
every entry of another playlist keeps its position as well. -/
theorem moveTrack_shuffleTracks_frame (RAND_MAX : Nat) (qrand : Nat → Nat)
    (m : PlaylistTableModel) (sourceIndex destIndex shuffleStartIndex : QModelIndex) :
    OnlyPositionsChanged m.m_iPlaylistId m.PlaylistTracks
        (moveTrack m sourceIndex destIndex).PlaylistTracks ∧
      OnlyPositionsChanged m.m_iPlaylistId m.PlaylistTracks
        (shuffleTracks RAND_MAX qrand m shuffleStartIndex).PlaylistTracks := by
  constructor
  · unfold moveTrack moveTrackWith
    simp only
    split_ifs with h0 h1
    · exact onlyPositionsChanged_refl _ _
    · rw [select_PlaylistTracks]
      obtain ⟨f, hf⟩ := execAll_moveTrackStatements_onPlaylist m.m_iPlaylistId
        (positionData m sourceIndex) (rowCount m) m.PlaylistTracks
      simp only [hf]
      exact onlyPositionsChanged_onPlaylist _ _ _
    · rw [select_PlaylistTracks]
      obtain ⟨f, hf⟩ := execAll_moveTrackStatements_onPlaylist m.m_iPlaylistId
        (positionData m sourceIndex) (positionData m destIndex) m.PlaylistTracks
      simp only [hf]
      exact onlyPositionsChanged_onPlaylist _ _ _
  · unfold shuffleTracks
    simp only [select_PlaylistTracks]
    obtain ⟨f, hf⟩ := foldl_shuffleStep_onPlaylist RAND_MAX qrand m (rowCount m)
      shuffleStartIndex.row (List.range (rowCount m - shuffleStartIndex.row).toNat)
      m.PlaylistTracks
    rw [hf]
    exact onlyPositionsChanged_onPlaylist _ _ _

/-! ## Shuffle: the rounding of the draw -/

theorem map_position_samplePlaylist (pid : Int) (n : Nat) :
    (samplePlaylist pid n).map (fun r => r.position) = positionRange n := by
  unfold samplePlaylist positionRange
  rw [List.map_map]
  rfl

theorem positionsOf_samplePlaylist (pid : Int) (n : Nat) :
    positionsOf (samplePlaylist pid n) pid = positionRange n := by
  unfold positionsOf
  have hall : (samplePlaylist pid n).filter (fun r => decide (r.playlist_id = pid)) =
      samplePlaylist pid n := by
    rw [List.filter_eq_self]
    intro r hr
    unfold samplePlaylist at hr
    obtain ⟨k, _, rfl⟩ := List.mem_map.mp hr
    simp
  rw [hall]
  exact map_position_samplePlaylist pid n

theorem dense_samplePlaylist (pid : Int) (n : Nat) : Dense (samplePlaylist pid n) pid n := by
  unfold Dense
  rw [positionsOf_samplePlaylist]

theorem sorted_samplePlaylist (pid : Int) (n : Nat) :
    (samplePlaylist pid n).Sorted (fun a b => a.position ≤ b.position) := by
  unfold samplePlaylist List.Sorted
  rw [List.pairwise_map]
  refine (List.pairwise_lt_range n).imp ?_
  intro a b hab
  simp only
  omega

/-- The view of the sample model shows its `n` entries in position order. -/
theorem rows_sampleModel (n : Nat) (locked : Bool) :
    (sampleModel n locked).rows = samplePlaylist 7 n := by
  unfold sampleModel select
  simp only
  have hview : viewRows
      { m_iPlaylistId := 7
        m_showAll := false
        PlaylistTracks := samplePlaylist 7 n
        library := (List.range n).map (fun (k : Nat) => ⟨100 + ((k : Int) + 1), false⟩)
        lockedPlaylists := if locked then [7] else []
        rows := [] } = samplePlaylist 7 n := by
    unfold viewRows
    simp only
    rw [List.filter_eq_self]
    intro r hr
    unfold samplePlaylist at hr
    obtain ⟨k, hk, rfl⟩ := List.mem_map.mp hr
    simp only [decide_True, Bool.true_and, Bool.false_or, List.any_eq_true, Bool.and_eq_true,
      decide_eq_true_eq, Bool.not_eq_true']
    exact ⟨⟨100 + ((k : Int) + 1), false⟩, List.mem_map.mpr ⟨k, hk, rfl⟩, rfl, rfl⟩
  rw [hview]
  exact List.Sorted.insertionSort_eq (sorted_samplePlaylist 7 n)

theorem fullView_sampleModel (n : Nat) (locked : Bool) : FullView (sampleModel n locked) n := by
  unfold FullView
  rw [rows_sampleModel]
  exact map_position_samplePlaylist 7 n

theorem select_sampleModel (n : Nat) (locked : Bool) :
    select (sampleModel n locked) = sampleModel n locked := rfl

/-- Started at the last row with a draw above `N`, the one pass of
`shuffleTracks` moves the entry at position `N` to the drawn position. -/
theorem shuffleTracks_last_row_overshoot (RAND_MAX : Nat) (qrand : Nat → Nat)
    (m : PlaylistTableModel) (shuffleStartIndex : QModelIndex) (N : Nat)
    (hdense : Dense m.PlaylistTracks m.m_iPlaylistId N)
    (hview : FullView m N) (hN : 1 ≤ N) (hrow : shuffleStartIndex.row = (N : Int) - 1)
    (hr : (N : Int) < randomPosition RAND_MAX (qrand 0) N ((N : Int) - 1)) :
    (shuffleTracks RAND_MAX qrand m shuffleStartIndex).PlaylistTracks =
      onPlaylist m.m_iPlaylistId
        (fun p => if p = N then randomPosition RAND_MAX (qrand 0) N ((N : Int) - 1) else p)
        m.PlaylistTracks := by
  unfold shuffleTracks
  simp only [select_PlaylistTracks, rowCount_of_fullView hview, hrow]
  have hone : ((N : Int) - ((N : Int) - 1)).toNat = 1 := by omega
  rw [hone]
  have hrange : List.range 1 = [0] := rfl
  rw [hrange]
  simp only [List.foldl_cons, List.foldl_nil]
  unfold shuffleStep
  simp only
  have hpos := positionData_of_fullView hview ((N : Int) - 1 - ((0 : Nat) : Int))
    (by omega) (by omega)
  rw [hpos, execAll_swapStatements]
  apply onPlaylist_congr
  intro r hrow2 hp
  have hb := hdense.bounds hrow2 hp
  simp only
  split_ifs <;> omega

/-- A table of positions `1..N` whose entry at `N` is sent above `N` no longer
holds the positions `1..N`: the position `N` is vacant and a position above `N`
is taken. -/
theorem not_dense_of_overshoot (db : Table) (pid : Int) (N : Nat) (r : Int)
    (hdense : Dense db pid N) (hN : 1 ≤ N) (hr : (N : Int) < r) :
    r ∈ positionsOf (onPlaylist pid (fun p => if p = N then r else p) db) pid ∧
    (N : Int) ∉ positionsOf (onPlaylist pid (fun p => if p = N then r else p) db) pid ∧
    ¬ Dense (onPlaylist pid (fun p => if p = N then r else p) db) pid N := by
  rw [positionsOf_onPlaylist]
  have hmemN : (N : Int) ∈ positionsOf db pid :=
    hdense.symm.subset ((mem_positionRange N N).mpr ⟨by omega, le_refl _⟩)
  have hin : r ∈ (positionsOf db pid).map (fun (p : Int) => if p = (N : Int) then r else p) :=
    List.mem_map.mpr ⟨N, hmemN, by simp⟩
  refine ⟨hin, ?_, ?_⟩
  · intro hmem
    obtain ⟨p, _, hp⟩ := List.mem_map.mp hmem
    split_ifs at hp <;> omega
  · intro hd
    have hd2 : ((positionsOf db pid).map (fun (p : Int) => if p = (N : Int) then r else p)).Perm
        (positionRange N) := by
      unfold Dense at hd
      rw [positionsOf_onPlaylist] at hd
      exact hd
    have := (mem_positionRange N r).mp (hd2.subset hin)
    omega

/-- While the arithmetic of the draw is exact (`RAND_MAX + 1` a power of two,
`2 ^ j`, and `(N + 1) * 2 ^ j < 2 ^ 53`), `shuffleTracks` keeps the multiset of
the tracks held at the positions `[s + 1, N]` and the positions `1..N` of the
playlist. -/
theorem shuffleTracks_conserves_suffix_of_exact (RAND_MAX : Nat) (qrand : Nat → Nat)
    (m : PlaylistTableModel) (shuffleStartIndex : QModelIndex) (N j : Nat)
    (hdense : Dense m.PlaylistTracks m.m_iPlaylistId N)
    (hview : FullView m N) (hs : 0 ≤ shuffleStartIndex.row)
    (hq : ∀ k, qrand k ≤ RAND_MAX) (hR : RAND_MAX + 1 = 2 ^ j)
    (hexact : ((N : Int) + 1) * (2 : Int) ^ j < (2 : Int) ^ 53) :
    (((shuffleTracks RAND_MAX qrand m shuffleStartIndex).PlaylistTracks.filter
        (fun r => decide (r.playlist_id = m.m_iPlaylistId ∧
          shuffleStartIndex.row + 1 ≤ r.position ∧ r.position ≤ (N : Int)))).map
        (fun r => r.track_id)).Perm
      ((m.PlaylistTracks.filter
        (fun r => decide (r.playlist_id = m.m_iPlaylistId ∧
          shuffleStartIndex.row + 1 ≤ r.position ∧ r.position ≤ (N : Int)))).map
        (fun r => r.track_id)) ∧
    Dense (shuffleTracks RAND_MAX qrand m shuffleStartIndex).PlaylistTracks
      m.m_iPlaylistId N := by
  obtain ⟨f, hf, htable⟩ :=
    shuffleTracks_table RAND_MAX qrand m shuffleStartIndex N j hview hs hq hR hexact
  rw [htable]
  constructor
  · apply List.Perm.of_eq
    unfold onPlaylist
    rw [List.filter_map, List.map_map]
    have hfilter : m.PlaylistTracks.filter
        ((fun r : PlaylistTrack => decide (r.playlist_id = m.m_iPlaylistId ∧
          shuffleStartIndex.row + 1 ≤ r.position ∧ r.position ≤ (N : Int))) ∘
          fun r : PlaylistTrack => if r.playlist_id = m.m_iPlaylistId then
            ({ r with position := f r.position } : PlaylistTrack) else r) =
        m.PlaylistTracks.filter (fun r => decide (r.playlist_id = m.m_iPlaylistId ∧
          shuffleStartIndex.row + 1 ≤ r.position ∧ r.position ≤ (N : Int))) := by
      apply List.filter_congr
      intro r hr
      by_cases hp : r.playlist_id = m.m_iPlaylistId
      · have hb := hdense.bounds hr hp
        obtain ⟨ha, hb2, _⟩ := hf r.position hb.1 hb.2
        simp only [Function.comp, hp, if_true, true_and, decide_eq_decide]
        rcases le_or_lt r.position shuffleStartIndex.row with h | h
        · rw [ha h]
        · have := hb2 h
          constructor <;> intro _ <;> omega
      · simp [Function.comp, hp]
    rw [hfilter]
    apply List.map_congr_left
    intro r _
    simp only [Function.comp]
    split_ifs <;> rfl
  · apply hdense.onPlaylist
    · intro p h1 h2
      obtain ⟨ha, hb, _⟩ := hf p h1 h2
      rcases le_or_lt p shuffleStartIndex.row with h | h
      · rw [ha h]
        exact ⟨h1, h2⟩
      · have := hb h
        omega
    · intro p q hp1 hp2 hq1 hq2 h
      exact (hf p hp1 hp2).2.2 q hq1 hq2 h

/-- While the arithmetic of the draw is exact, `shuffleTracks` started at the
last row swaps position `N` with itself and leaves the table as it was. -/
theorem shuffleTracks_last_row_of_exact (RAND_MAX : Nat) (qrand : Nat → Nat)
    (m : PlaylistTableModel) (shuffleStartIndex : QModelIndex) (N j : Nat)
    (hdense : Dense m.PlaylistTracks m.m_iPlaylistId N)
    (hview : FullView m N) (hN : 1 ≤ N) (hrow : shuffleStartIndex.row = (N : Int) - 1)
    (hq : qrand 0 ≤ RAND_MAX) (hR : RAND_MAX + 1 = 2 ^ j)
    (hexact : ((N : Int) + 1) * (2 : Int) ^ j < (2 : Int) ^ 53) :
    (shuffleTracks RAND_MAX qrand m shuffleStartIndex).PlaylistTracks = m.PlaylistTracks := by
  unfold shuffleTracks
  simp only [select_PlaylistTracks, rowCount_of_fullView hview, hrow]
  have hone : ((N : Int) - ((N : Int) - 1)).toNat = 1 := by omega
  rw [hone]
  have hrange : List.range 1 = [0] := rfl
  rw [hrange]
  simp only [List.foldl_cons, List.foldl_nil]
  unfold shuffleStep
  simp only
  have hpos := positionData_of_fullView hview ((N : Int) - 1 - ((0 : Nat) : Int))
    (by omega) (by omega)
  have hrand := randomPosition_bounds RAND_MAX (qrand 0) j N ((N : Int) - 1) hR hq (by omega)
    (by omega) hexact
  have hr : randomPosition RAND_MAX (qrand 0) N ((N : Int) - 1) = N := by omega
  rw [hpos, hr, execAll_swapStatements]
  conv_rhs => rw [← onPlaylist_id m.m_iPlaylistId m.PlaylistTracks]
  apply onPlaylist_congr
  intro r hr hp
  have hb := hdense.bounds hr hp
  simp only
  split_ifs <;> omega

theorem sampleModel_PlaylistTracks (n : Nat) (locked : Bool) :
    (sampleModel n locked).PlaylistTracks = samplePlaylist 7 n := rfl

theorem sampleModel_playlistId (n : Nat) (locked : Bool) :
    (sampleModel n locked).m_iPlaylistId = 7 := rfl

/-- The sample model of `N = M + 1` entries, shuffled from its last row with a
draw `r` above `N`: the table after the call, its positions, and what became of
the entry of position `N`. -/
theorem shuffleTracks_sample_overshoot (RAND_MAX : Nat) (qrand : Nat → Nat) (N M : Nat)
    (shuffleStartIndex : QModelIndex) (n s r t : Int) (hM : N = M + 1)
    (hn : n = N) (hs : s = M) (hrow : shuffleStartIndex.row = s) (ht : t = 100 + n)
    (hdraw : randomPosition RAND_MAX (qrand 0) n s = r) (hr : n < r) :
    (Dense (sampleModel N false).PlaylistTracks (sampleModel N false).m_iPlaylistId N ∧
      FullView (sampleModel N false) N ∧
      select (sampleModel N false) = sampleModel N false) ∧
    (positionsOf (shuffleTracks RAND_MAX qrand (sampleModel N false)
        shuffleStartIndex).PlaylistTracks (sampleModel N false).m_iPlaylistId =
        positionRange M ++ [r] ∧
      ¬ Dense (shuffleTracks RAND_MAX qrand (sampleModel N false)
        shuffleStartIndex).PlaylistTracks (sampleModel N false).m_iPlaylistId N ∧
      ¬ (((shuffleTracks RAND_MAX qrand (sampleModel N false)
          shuffleStartIndex).PlaylistTracks.filter
          (fun e => decide (e.playlist_id = (sampleModel N false).m_iPlaylistId ∧
            shuffleStartIndex.row + 1 ≤ e.position ∧ e.position ≤ (N : Int)))).map
          (fun e => e.track_id)).Perm
        (((sampleModel N false).PlaylistTracks.filter
          (fun e => decide (e.playlist_id = (sampleModel N false).m_iPlaylistId ∧
            shuffleStartIndex.row + 1 ≤ e.position ∧ e.position ≤ (N : Int)))).map
          (fun e => e.track_id))) ∧
    ((⟨7, t, n⟩ : PlaylistTrack) ∈ (sampleModel N false).PlaylistTracks ∧
      (⟨7, t, n⟩ : PlaylistTrack) ∉ (shuffleTracks RAND_MAX qrand (sampleModel N false)
        shuffleStartIndex).PlaylistTracks ∧
      (⟨7, t, r⟩ : PlaylistTrack) ∈ (shuffleTracks RAND_MAX qrand (sampleModel N false)
        shuffleStartIndex).PlaylistTracks ∧
      shuffleTracks RAND_MAX qrand (sampleModel N false) shuffleStartIndex ≠
        sampleModel N false) := by
  subst hn hs ht hM
  have hdense : Dense (sampleModel (M + 1) false).PlaylistTracks
      (sampleModel (M + 1) false).m_iPlaylistId (M + 1) := dense_samplePlaylist 7 (M + 1)
  have hview := fullView_sampleModel (M + 1) false
  have hcast : ((M : Int)) = (((M + 1 : Nat) : Int)) - 1 := by push_cast; omega
  have htable := shuffleTracks_last_row_overshoot RAND_MAX qrand (sampleModel (M + 1) false)
    shuffleStartIndex (M + 1) hdense hview (by omega) (by rw [hrow]; exact hcast)
    (by rw [← hcast, hdraw]; exact hr)
  rw [← hcast, hdraw] at htable
  have hover := not_dense_of_overshoot (sampleModel (M + 1) false).PlaylistTracks
    (sampleModel (M + 1) false).m_iPlaylistId (M + 1) r hdense (by omega) hr
  have hbefore : (⟨7, 100 + ((M + 1 : Nat) : Int), ((M + 1 : Nat) : Int)⟩ : PlaylistTrack) ∈
      (sampleModel (M + 1) false).PlaylistTracks := by
    rw [sampleModel_PlaylistTracks]
    unfold samplePlaylist
    refine List.mem_map.mpr ⟨M, List.mem_range.mpr (by omega), ?_⟩
    push_cast
    rfl
  have hnotafter : (⟨7, 100 + ((M + 1 : Nat) : Int), ((M + 1 : Nat) : Int)⟩ : PlaylistTrack) ∉
      (shuffleTracks RAND_MAX qrand (sampleModel (M + 1) false)
        shuffleStartIndex).PlaylistTracks := by
    rw [htable]
    intro hmem
    apply hover.2.1
    unfold positionsOf
    exact List.mem_map.mpr ⟨_, List.mem_filter.mpr ⟨hmem, by
      rw [sampleModel_playlistId]; simp⟩, rfl⟩
  refine ⟨⟨hdense, hview, select_sampleModel (M + 1) false⟩, ⟨?_, ?_, ?_⟩, hbefore, hnotafter,
    ?_, ?_⟩
  · rw [htable, positionsOf_onPlaylist, sampleModel_PlaylistTracks, sampleModel_playlistId,
      positionsOf_samplePlaylist]
    unfold positionRange
    rw [List.range_succ, List.map_append, List.map_append, List.map_map]
    congr 1
    · apply List.map_congr_left
      intro k hk
      rw [List.mem_range] at hk
      simp only [Function.comp]
      rw [if_neg (by push_cast; omega)]
    · simp
  · rw [htable]
    exact hover.2.2
  · intro hperm
    have hnil : (shuffleTracks RAND_MAX qrand (sampleModel (M + 1) false)
        shuffleStartIndex).PlaylistTracks.filter
        (fun e => decide (e.playlist_id = (sampleModel (M + 1) false).m_iPlaylistId ∧
          shuffleStartIndex.row + 1 ≤ e.position ∧ e.position ≤ ((M + 1 : Nat) : Int))) = [] := by
      rw [List.filter_eq_nil_iff]
      intro e he hcond
      rw [decide_eq_true_eq] at hcond
      apply hover.2.1
      rw [← htable]
      unfold positionsOf
      refine List.mem_map.mpr ⟨e, List.mem_filter.mpr ⟨he, by simpa using hcond.1⟩, ?_⟩
      have := hcond.2
      rw [hrow] at this
      push_cast at this ⊢
      omega
    rw [hnil] at hperm
    have hmem : (⟨7, 100 + ((M + 1 : Nat) : Int), ((M + 1 : Nat) : Int)⟩ : PlaylistTrack) ∈
        (sampleModel (M + 1) false).PlaylistTracks.filter
        (fun e => decide (e.playlist_id = (sampleModel (M + 1) false).m_iPlaylistId ∧
          shuffleStartIndex.row + 1 ≤ e.position ∧ e.position ≤ ((M + 1 : Nat) : Int))) := by
      refine List.mem_filter.mpr ⟨hbefore, ?_⟩
      rw [decide_eq_true_eq, sampleModel_playlistId, hrow]
      refine ⟨rfl, ?_, le_refl _⟩
      push_cast
      omega
    have hlen := hperm.length_eq
    rw [List.map_nil, List.length_nil, List.length_map] at hlen
    have hpos := List.length_pos_of_mem hmem
    omega
  · rw [htable]
    have himg := List.mem_map_of_mem
      (fun e : PlaylistTrack => if e.playlist_id = (sampleModel (M + 1) false).m_iPlaylistId
        then ({ e with position := if e.position = ((M + 1 : Nat) : Int) then r
          else e.position } : PlaylistTrack) else e) hbefore
    unfold onPlaylist
    rw [sampleModel_playlistId] at himg ⊢
    simpa using himg
  · intro heq
    apply hnotafter
    rw [heq]
    exact hbefore

/-! ## Shuffle conservation at 4194304 entries -/

/-- C5. A playlist of 4194304 entries at the positions `1..4194304`, shown as a
full view in ascending position order, is shuffled from its last row (start
position 4194304) with `RAND_MAX = 2147483647` and a `qrand` that answers
`RAND_MAX`.  The draw, computed in double precision, is 4194305, one above the
last position.  After the call the positions of the playlist are `1..4194303`
and 4194305, no longer `1..4194304`, and the positions `[4194304, 4194304]` no
longer hold the multiset of tracks that they held before. -/
theorem shuffleTracks_rounding_breaks_conservation :
    (Dense (sampleModel 4194304 false).PlaylistTracks
        (sampleModel 4194304 false).m_iPlaylistId 4194304 ∧
      FullView (sampleModel 4194304 false) 4194304 ∧
      0 ≤ (⟨4194303⟩ : QModelIndex).row ∧
      ∀ k, (fun _ : Nat => 2147483647) k ≤ 2147483647) ∧
    randomPosition 2147483647 2147483647 4194304 4194303 = 4194305 ∧
    positionsOf (shuffleTracks 2147483647 (fun _ => 2147483647) (sampleModel 4194304 false)
        ⟨4194303⟩).PlaylistTracks (sampleModel 4194304 false).m_iPlaylistId =
      positionRange 4194303 ++ [4194305] ∧
    ¬ Dense (shuffleTracks 2147483647 (fun _ => 2147483647) (sampleModel 4194304 false)
        ⟨4194303⟩).PlaylistTracks (sampleModel 4194304 false).m_iPlaylistId 4194304 ∧
    ¬ (((shuffleTracks 2147483647 (fun _ => 2147483647) (sampleModel 4194304 false)
        ⟨4194303⟩).PlaylistTracks.filter
        (fun e => decide (e.playlist_id = (sampleModel 4194304 false).m_iPlaylistId ∧
          (⟨4194303⟩ : QModelIndex).row + 1 ≤ e.position ∧
          e.position ≤ ((4194304 : Nat) : Int)))).map (fun e => e.track_id)).Perm
      (((sampleModel 4194304 false).PlaylistTracks.filter
        (fun e => decide (e.playlist_id = (sampleModel 4194304 false).m_iPlaylistId ∧
          (⟨4194303⟩ : QModelIndex).row + 1 ≤ e.position ∧
          e.position ≤ ((4194304 : Nat) : Int)))).map (fun e => e.track_id)) :=
  have h := shuffleTracks_sample_overshoot 2147483647 (fun _ => 2147483647) 4194304 4194303
    ⟨4194303⟩ 4194304 4194303 4194305 4194404 (by norm_num) (by norm_num) (by norm_num) rfl
    (by norm_num) randomPosition_rounds_up (by norm_num)
  ⟨⟨h.1.1, h.1.2.1, by norm_num, fun _ => le_refl _⟩, randomPosition_rounds_up,
    h.2.1.1, h.2.1.2.1, h.2.1.2.2⟩

/-! ## Shuffle of a single-element suffix at 4194304 entries -/

/-- C14. A playlist of 4194304 entries at the positions `1..4194304`, shown as a
full view in ascending position order (the view being the one that `select()`
loads), is shuffled from its last row, a single-element suffix, with
`RAND_MAX = 2147483647` and a `qrand` that answers `RAND_MAX`.  The call does not
leave the playlist as it was: the entry of track 4194404 leaves position 4194304
for position 4194305. -/
theorem shuffleTracks_rounding_moves_last_entry :
    (Dense (sampleModel 4194304 false).PlaylistTracks
        (sampleModel 4194304 false).m_iPlaylistId 4194304 ∧
      FullView (sampleModel 4194304 false) 4194304 ∧
      select (sampleModel 4194304 false) = sampleModel 4194304 false ∧
      (⟨4194303⟩ : QModelIndex).row = ((4194304 : Nat) : Int) - 1 ∧
      ∀ k, (fun _ : Nat => 2147483647) k ≤ 2147483647) ∧
    (⟨7, 4194404, 4194304⟩ : PlaylistTrack) ∈ (sampleModel 4194304 false).PlaylistTracks ∧
    (⟨7, 4194404, 4194304⟩ : PlaylistTrack) ∉
      (shuffleTracks 2147483647 (fun _ => 2147483647) (sampleModel 4194304 false)
        ⟨4194303⟩).PlaylistTracks ∧
    (⟨7, 4194404, 4194305⟩ : PlaylistTrack) ∈
      (shuffleTracks 2147483647 (fun _ => 2147483647) (sampleModel 4194304 false)
        ⟨4194303⟩).PlaylistTracks ∧
    shuffleTracks 2147483647 (fun _ => 2147483647) (sampleModel 4194304 false) ⟨4194303⟩ ≠
      sampleModel 4194304 false :=
  have h := shuffleTracks_sample_overshoot 2147483647 (fun _ => 2147483647) 4194304 4194303
    ⟨4194303⟩ 4194304 4194303 4194305 4194404 (by norm_num) (by norm_num) (by norm_num) rfl
    (by norm_num) randomPosition_rounds_up (by norm_num)
  ⟨⟨h.1.1, h.1.2.1, h.1.2.2, by norm_num, fun _ => le_refl _⟩, h.2.2.1, h.2.2.2.1,
    h.2.2.2.2.1, h.2.2.2.2.2⟩

end Mixxx
